import Mathlib

/-!
Verification of the bit-buffer library: a shallow embedding of its
`BitView` bit engine, the `BitStream` cursor layer and the string codec,
followed by theorems settling the specified properties.

JavaScript numbers that flow through the bitwise operators are modelled as
`Int` together with the ECMA-262 `ToUint32` / `ToInt32` conversions, so
every `&`, `|`, `^`, `~`, `<<`, `>>`, `>>>` of the source is mirrored by a
`js*` operation below that works on the 32-bit pattern with an explicit
`% 2 ^ 32`.  Byte buffers (`Uint8Array`) are `List Nat` whose entries are
kept below 256 by the store conversion `toUint8`.
-/

namespace BitBuffer

/-- ECMA-262 ToUint32: the 32-bit pattern of an integral JS number. -/
def toUint32 (x : Int) : Nat := (x % 4294967296).toNat

/-- ECMA-262 ToInt32 re-interpretation of a 32-bit pattern as a signed value. -/
def ofPat (p : Nat) : Int := if p < 2147483648 then (p : Int) else (p : Int) - 4294967296

/-- ECMA-262 ToUint8, used when storing into a `Uint8Array`. -/
def toUint8 (x : Int) : Nat := toUint32 x % 256

/-- JS `a & b`. -/
def jsAnd (a b : Int) : Int := ofPat (toUint32 a &&& toUint32 b)

/-- JS `a | b`. -/
def jsOr (a b : Int) : Int := ofPat (toUint32 a ||| toUint32 b)

/-- JS `a ^ b`. -/
def jsXor (a b : Int) : Int := ofPat (toUint32 a ^^^ toUint32 b)

/-- JS `~a`. -/
def jsNot (a : Int) : Int := ofPat (toUint32 a ^^^ 4294967295)

/-- JS `a << b`. -/
def jsShl (a b : Int) : Int := ofPat ((toUint32 a <<< (toUint32 b % 32)) % 4294967296)

/-- JS `a >> b` (sign-propagating shift = floor division of the int32
value; `Int` division is Euclidean, which is floor division for the
positive divisor `2 ^ (b % 32)`). -/
def jsShrS (a b : Int) : Int := ofPat (toUint32 a) / 2 ^ (toUint32 b % 32)

/-- JS `a >>> b`. -/
def jsShrU (a b : Int) : Int := ((toUint32 a >>> (toUint32 b % 32) : Nat) : Int)

/-- The two error kinds of the library: `outOfRange` is the engine-level
throw of `BitView.getBits`/`setBits` ("Cannot get/set ... bit(s) from
offset ..."), `endOfStream` is the cursor-level throw of
`BitStream.reader` ("Trying to read past the end of the stream"). -/
inductive StreamError where
  | outOfRange
  | endOfStream
deriving Repr, DecidableEq

/-- All entries of a byte buffer are bytes. -/
def Bytes (view : List Nat) : Prop := ∀ b ∈ view, b < 256

instance (view : List Nat) : Decidable (Bytes view) := List.decidableBAll _ view

/-- One iteration chain of the read loop of `BitView.getBits`
(`src/unnamed/part_001` lines 49-81).  `fuel` bounds the number of
iterations; each iteration consumes at least one bit, so `fuel = bits`
iterations always suffice. -/
def getBitsLoop (view : List Nat) (bigEndian : Bool) (bits : Nat) :
    Nat → Nat → Nat → Int → Int
  | 0, _, _, value => value
  | fuel + 1, offset, i, value =>
    if i < bits then
      let remaining := bits - i
      let bitOffset := offset % 8
      let currentByte : Int := ((view.getD (offset / 8) 0 : Nat) : Int)
      let read := min remaining (8 - bitOffset)
      let mask : Int := jsNot (jsShl 255 (read : Int))
      if bigEndian then
        let readBits := jsAnd (jsShrS currentByte ((8 - read - bitOffset : Nat) : Int)) mask
        getBitsLoop view bigEndian bits fuel (offset + read) (i + read)
          (jsOr (jsShl value (read : Int)) readBits)
      else
        let readBits := jsAnd (jsShrS currentByte (bitOffset : Int)) mask
        getBitsLoop view bigEndian bits fuel (offset + read) (i + read)
          (jsOr value (jsShl readBits (i : Int)))
    else value

/-- `BitView.getBits` (`src/unnamed/part_001` lines 42-97); the
out-of-range throw becomes `Except.error`. -/
def getBits (view : List Nat) (bigEndian : Bool) (offset bits : Nat) (signed : Bool) :
    Except StreamError Int :=
  let available : Int := (view.length : Int) * 8 - (offset : Int)
  if (bits : Int) > available then .error .outOfRange
  else
    let value := getBitsLoop view bigEndian bits bits offset 0 0
    if signed then
      if bits ≠ 32 ∧ jsAnd value (jsShl 1 ((bits : Int) - 1)) ≠ 0 then
        .ok (jsOr value (jsXor (-1) (jsShl 1 (bits : Int) - 1)))
      else .ok value
    else .ok (jsShrU value 0)

/-- One iteration chain of the write loop of `BitView.setBits`
(`src/unnamed/part_001` lines 105-148), with the same fuel convention as
`getBitsLoop`. -/
def setBitsLoop (bigEndian : Bool) (bits : Nat) :
    Nat → List Nat → Nat → Nat → Int → List Nat
  | 0, view, _, _, _ => view
  | fuel + 1, view, offset, i, value =>
    if i < bits then
      let remaining := bits - i
      let bitOffset := offset % 8
      let byteOffset := offset / 8
      let wrote := min remaining (8 - bitOffset)
      if bigEndian then
        let mask := jsNot (jsShl (jsNot 0) (wrote : Int))
        let writeBits := jsAnd (jsShrS value ((bits : Int) - (i : Int) - (wrote : Int))) mask
        let destShift : Int := 8 - (bitOffset : Int) - (wrote : Int)
        let destMask := jsNot (jsShl mask destShift)
        let newByte := jsOr (jsAnd ((view.getD byteOffset 0 : Nat) : Int) destMask)
          (jsShl writeBits destShift)
        setBitsLoop bigEndian bits fuel (view.set byteOffset (toUint8 newByte))
          (offset + wrote) (i + wrote) value
      else
        let mask := jsNot (jsShl 255 (wrote : Int))
        let writeBits := jsAnd value mask
        let value' := jsShrS value (wrote : Int)
        let destMask := jsNot (jsShl mask (bitOffset : Int))
        let newByte := jsOr (jsAnd ((view.getD byteOffset 0 : Nat) : Int) destMask)
          (jsShl writeBits (bitOffset : Int))
        setBitsLoop bigEndian bits fuel (view.set byteOffset (toUint8 newByte))
          (offset + wrote) (i + wrote) value'
    else view

/-- `BitView.setBits` (`src/unnamed/part_001` lines 99-149); the
out-of-range throw becomes `Except.error` and is raised before the loop. -/
def setBits (view : List Nat) (bigEndian : Bool) (offset : Nat) (value : Int) (bits : Nat) :
    Except StreamError (List Nat) :=
  let available : Int := (view.length : Int) * 8 - (offset : Int)
  if (bits : Int) > available then .error .outOfRange
  else .ok (setBitsLoop bigEndian bits bits view offset 0 value)

/-- The buffer after a call to `BitView.setBits`: on success the written
buffer, on a throw the buffer as it was when the exception left the
method (the bounds check precedes the loop, so that is the input). -/
def setBitsState (view : List Nat) (bigEndian : Bool) (offset : Nat) (value : Int)
    (bits : Nat) : List Nat :=
  match setBits view bigEndian offset value bits with
  | .ok view' => view'
  | .error _ => view

/-! ### Derived `BitView` accessors (`src/unnamed/part_001` lines 151-212) -/

/-- `BitView.getBoolean`. -/
def getBoolean (view : List Nat) (bigEndian : Bool) (offset : Nat) :
    Except StreamError Bool :=
  (getBits view bigEndian offset 1 false).map (· ≠ 0)

/-- `BitView.getInt8`. -/
def getInt8 (view : List Nat) (bigEndian : Bool) (offset : Nat) : Except StreamError Int :=
  getBits view bigEndian offset 8 true

/-- `BitView.getInt16`. -/
def getInt16 (view : List Nat) (bigEndian : Bool) (offset : Nat) : Except StreamError Int :=
  getBits view bigEndian offset 16 true

/-- `BitView.getInt32`. -/
def getInt32 (view : List Nat) (bigEndian : Bool) (offset : Nat) : Except StreamError Int :=
  getBits view bigEndian offset 32 true

/-- `BitView.getUint8`. -/
def getUint8 (view : List Nat) (bigEndian : Bool) (offset : Nat) : Except StreamError Int :=
  getBits view bigEndian offset 8 false

/-- `BitView.getUint16`. -/
def getUint16 (view : List Nat) (bigEndian : Bool) (offset : Nat) : Except StreamError Int :=
  getBits view bigEndian offset 16 false

/-- `BitView.getUint32`. -/
def getUint32 (view : List Nat) (bigEndian : Bool) (offset : Nat) : Except StreamError Int :=
  getBits view bigEndian offset 32 false

/-- `BitView.getFloat32`: the scratch `DataView` reinterprets the 32-bit
unsigned read as an IEEE-754 single.  The float is modelled by its 32-bit
pattern, which is exactly the value read. -/
def getFloat32 (view : List Nat) (bigEndian : Bool) (offset : Nat) : Except StreamError Int :=
  getBits view bigEndian offset 32 false

/-- `BitView.getFloat64` (source lines 166-172): two 32-bit unsigned reads
at `offset` and `offset + 32` placed in the high and low words of the
8-byte scratch (`setUint32(0, hi)`, `setUint32(4, lo)`, big-endian
`DataView` default), reinterpreted as a double.  The double is modelled by
its 64-bit pattern `hi * 2^32 + lo`. -/
def getFloat64 (view : List Nat) (bigEndian : Bool) (offset : Nat) : Except StreamError Nat := do
  let hi ← getUint32 view bigEndian offset
  let lo ← getUint32 view bigEndian (offset + 32)
  pure (hi.toNat * 4294967296 + lo.toNat)

/-- `BitView.setBoolean`. -/
def setBoolean (view : List Nat) (bigEndian : Bool) (offset : Nat) (value : Bool) :
    Except StreamError (List Nat) :=
  setBits view bigEndian offset (if value then 1 else 0) 1

/-- `BitView.setInt8` (also aliased as `setUint8` in the source). -/
def setInt8 (view : List Nat) (bigEndian : Bool) (offset : Nat) (value : Int) :
    Except StreamError (List Nat) :=
  setBits view bigEndian offset value 8

/-- `BitView.setInt16` (also aliased as `setUint16`). -/
def setInt16 (view : List Nat) (bigEndian : Bool) (offset : Nat) (value : Int) :
    Except StreamError (List Nat) :=
  setBits view bigEndian offset value 16

/-- `BitView.setInt32` (also aliased as `setUint32`). -/
def setInt32 (view : List Nat) (bigEndian : Bool) (offset : Nat) (value : Int) :
    Except StreamError (List Nat) :=
  setBits view bigEndian offset value 32

/-- `BitView.setFloat32`: write the IEEE-754 pattern of the single.  The
float argument is modelled by its 32-bit pattern. -/
def setFloat32 (view : List Nat) (bigEndian : Bool) (offset : Nat) (pat32 : Nat) :
    Except StreamError (List Nat) :=
  setBits view bigEndian offset (pat32 : Int) 32

/-- `BitView.setFloat64` (source lines 199-203): the scratch holds the
8-byte IEEE-754 pattern of the double (modelled as `pat64 < 2^64`);
`getUint32(0)` is the high word, `getUint32(4)` the low word, and the
source issues *both* `setBits` calls at `offset` (the second is not at
`offset + 32`). -/
def setFloat64 (view : List Nat) (bigEndian : Bool) (offset : Nat) (pat64 : Nat) :
    Except StreamError (List Nat) := do
  let view' ← setBits view bigEndian offset ((pat64 / 4294967296 : Nat) : Int) 32
  setBits view' bigEndian offset ((pat64 % 4294967296 : Nat) : Int) 32

/-! ### The cursor layer (`src/unnamed/part_000`) -/

/-- The mutable position state of a `BitStream` (source lines 17-19):
all three fields are absolute bit positions into the shared `BitView`
address space.  The `BitView` itself (byte buffer plus endian flag) is
shared between a cursor and its sub-streams and is passed separately. -/
structure Cursor where
  startIndex : Nat
  length : Nat
  index : Nat
deriving Repr, DecidableEq

/-- A cursor for a whole fresh stream over `view`
(constructor, source lines 21-41): `index = startIndex = 0`,
`length = byteLength * 8`. -/
def Cursor.fresh (view : List Nat) : Cursor :=
  { startIndex := 0, length := 8 * view.length, index := 0 }

/-- `BitStream.reader` (source lines 87-96): the generic auto-advancing
read closure over a view getter `g` of bit width `size`.  The index
update happens after the view call, so a throw (either the `endOfStream`
pre-check or an engine `outOfRange`) leaves the cursor unchanged. -/
def reader {α : Type} (g : List Nat → Bool → Nat → Except StreamError α) (size : Nat)
    (view : List Nat) (bigEndian : Bool) (c : Cursor) :
    Except StreamError α × Cursor :=
  if c.index + size > c.length then (.error .endOfStream, c)
  else
    match g view bigEndian c.index with
    | .error e => (.error e, c)
    | .ok v => (.ok v, { c with index := c.index + size })

/-- `BitStream.writer` (source lines 98-101): the generic auto-advancing
write closure over a view setter `s` of bit width `size`; there is no
cursor-length pre-check, and the index update happens after the view
call. -/
def writer {β : Type} (s : List Nat → Bool → Nat → β → Except StreamError (List Nat))
    (size : Nat) (view : List Nat) (bigEndian : Bool) (c : Cursor) (value : β) :
    Except StreamError Unit × Cursor × List Nat :=
  match s view bigEndian c.index value with
  | .error e => (.error e, c, view)
  | .ok view' => (.ok (), { c with index := c.index + size }, view')

/-- `BitStream.readBits` (source lines 103-108): direct engine read at the
current absolute index with auto-advance, no cursor-length check. -/
def readBits (view : List Nat) (bigEndian : Bool) (c : Cursor) (bits : Nat) (signed : Bool) :
    Except StreamError Int × Cursor :=
  match getBits view bigEndian c.index bits signed with
  | .error e => (.error e, c)
  | .ok v => (.ok v, { c with index := c.index + bits })

/-- `BitStream.writeBits` (source lines 110-113): direct engine write at
the current absolute index with auto-advance, no cursor-length check. -/
def writeBits (view : List Nat) (bigEndian : Bool) (c : Cursor) (value : Int) (bits : Nat) :
    Except StreamError Unit × Cursor × List Nat :=
  match setBits view bigEndian c.index value bits with
  | .error e => (.error e, c, view)
  | .ok view' => (.ok (), { c with index := c.index + bits }, view')

/-- `BitStream.readBoolean = this.reader('getBoolean', 1)`. -/
def readBoolean (view : List Nat) (bigEndian : Bool) (c : Cursor) :
    Except StreamError Bool × Cursor := reader getBoolean 1 view bigEndian c

/-- `BitStream.readInt8 = this.reader('getInt8', 8)`. -/
def readInt8 (view : List Nat) (bigEndian : Bool) (c : Cursor) :
    Except StreamError Int × Cursor := reader getInt8 8 view bigEndian c

/-- `BitStream.readInt16 = this.reader('getInt16', 16)`. -/
def readInt16 (view : List Nat) (bigEndian : Bool) (c : Cursor) :
    Except StreamError Int × Cursor := reader getInt16 16 view bigEndian c

/-- `BitStream.readInt32 = this.reader('getInt32', 32)`. -/
def readInt32 (view : List Nat) (bigEndian : Bool) (c : Cursor) :
    Except StreamError Int × Cursor := reader getInt32 32 view bigEndian c

/-- `BitStream.readUint8 = this.reader('getUint8', 8)`. -/
def readUint8 (view : List Nat) (bigEndian : Bool) (c : Cursor) :
    Except StreamError Int × Cursor := reader getUint8 8 view bigEndian c

/-- `BitStream.readUint16 = this.reader('getUint16', 16)`. -/
def readUint16 (view : List Nat) (bigEndian : Bool) (c : Cursor) :
    Except StreamError Int × Cursor := reader getUint16 16 view bigEndian c

/-- `BitStream.readUint32 = this.reader('getUint32', 32)`. -/
def readUint32 (view : List Nat) (bigEndian : Bool) (c : Cursor) :
    Except StreamError Int × Cursor := reader getUint32 32 view bigEndian c

/-- `BitStream.readFloat32 = this.reader('getFloat32', 32)`. -/
def readFloat32 (view : List Nat) (bigEndian : Bool) (c : Cursor) :
    Except StreamError Int × Cursor := reader getFloat32 32 view bigEndian c

/-- `BitStream.readFloat64 = this.reader('getFloat64', 64)`. -/
def readFloat64 (view : List Nat) (bigEndian : Bool) (c : Cursor) :
    Except StreamError Nat × Cursor := reader getFloat64 64 view bigEndian c

/-- `BitStream.writeBoolean = this.writer('setBoolean', 1)`. -/
def writeBoolean (view : List Nat) (bigEndian : Bool) (c : Cursor) (value : Bool) :
    Except StreamError Unit × Cursor × List Nat := writer setBoolean 1 view bigEndian c value

/-- `BitStream.writeInt8 = this.writer('setInt8', 8)`. -/
def writeInt8 (view : List Nat) (bigEndian : Bool) (c : Cursor) (value : Int) :
    Except StreamError Unit × Cursor × List Nat := writer setInt8 8 view bigEndian c value

/-- `BitStream.writeInt16 = this.writer('setInt16', 16)`. -/
def writeInt16 (view : List Nat) (bigEndian : Bool) (c : Cursor) (value : Int) :
    Except StreamError Unit × Cursor × List Nat := writer setInt16 16 view bigEndian c value

/-- `BitStream.writeInt32 = this.writer('setInt32', 32)`. -/
def writeInt32 (view : List Nat) (bigEndian : Bool) (c : Cursor) (value : Int) :
    Except StreamError Unit × Cursor × List Nat := writer setInt32 32 view bigEndian c value

/-- `BitStream.writeUint8 = this.writer('setUint8', 8)` (`setUint8` is the
source's alias of `setInt8`). -/
def writeUint8 (view : List Nat) (bigEndian : Bool) (c : Cursor) (value : Int) :
    Except StreamError Unit × Cursor × List Nat := writer setInt8 8 view bigEndian c value

/-- `BitStream.writeUint16 = this.writer('setUint16', 16)`. -/
def writeUint16 (view : List Nat) (bigEndian : Bool) (c : Cursor) (value : Int) :
    Except StreamError Unit × Cursor × List Nat := writer setInt16 16 view bigEndian c value

/-- `BitStream.writeUint32 = this.writer('setUint32', 32)`. -/
def writeUint32 (view : List Nat) (bigEndian : Bool) (c : Cursor) (value : Int) :
    Except StreamError Unit × Cursor × List Nat := writer setInt32 32 view bigEndian c value

/-- `BitStream.writeFloat32 = this.writer('setFloat32', 32)` (float
modelled by its 32-bit pattern). -/
def writeFloat32 (view : List Nat) (bigEndian : Bool) (c : Cursor) (pat32 : Nat) :
    Except StreamError Unit × Cursor × List Nat := writer setFloat32 32 view bigEndian c pat32

/-- `BitStream.writeFloat64 = this.writer('setFloat64', 64)` (double
modelled by its 64-bit pattern). -/
def writeFloat64 (view : List Nat) (bigEndian : Bool) (c : Cursor) (pat64 : Nat) :
    Except StreamError Unit × Cursor × List Nat := writer setFloat64 64 view bigEndian c pat64

/-- `BitStream.readBitStream` (source lines 152-160):
`slice = new BitStream(this._view)` shares the engine and gets
`startIndex = index = 0`, `length = byteLength * 8`; then
`slice._startIndex = this._index`, `slice._index = this._index`,
`slice.length = bitLength` (the setter stores `bitLength + startIndex`),
and the parent advances by `bitLength`.  Returns `(slice, parent')`. -/
def readBitStream (view : List Nat) (c : Cursor) (bitLength : Nat) : Cursor × Cursor :=
  let slice := Cursor.fresh view
  let slice := { slice with startIndex := c.index, index := c.index }
  let slice := { slice with length := bitLength + slice.startIndex }
  (slice, { c with index := c.index + bitLength })

/-! ### The string codec (`src/src/utils.ts`) -/

/-- JS `Boolean(bytes)` for a possibly-`undefined` number. -/
def jsTruthy : Option Int → Bool
  | none => false
  | some b => b ≠ 0

/-- JS `i < bound` where `bound` may be NaN (`none`); every comparison
with NaN is false. -/
def jsLtNaN (i : Nat) : Option Int → Bool
  | none => false
  | some b => (i : Int) < b

/-- The read loop of `readString` (`src/src/utils.ts` lines 15-28).
`chars` accumulates the appended char codes; `append` is cleared by the
first `0x00`, which also breaks the loop when no fixed length was given.
`fuel` bounds the iterations (the wrapper passes more than `bound`). -/
def readStringLoop (view : List Nat) (bigEndian : Bool) (fixedLength : Bool)
    (bound : Option Int) :
    Nat → Cursor → Nat → Bool → List Int → Except StreamError (List Int × Cursor)
  | 0, c, _, _, chars => .ok (chars, c)
  | fuel + 1, c, i, append, chars =>
    if jsLtNaN i bound then
      match readUint8 view bigEndian c with
      | (.error e, _) => .error e
      | (.ok ch, c') =>
        if ch = 0 ∧ ¬fixedLength then .ok (chars, c')
        else
          let append' := if ch = 0 then false else append
          let chars' := if append' then chars ++ [ch] else chars
          readStringLoop view bigEndian fixedLength bound fuel c' (i + 1) append' chars'
    else .ok (chars, c)

/-- Iteration bound for `readStringLoop`: at least `bound + 1`, so the
`i < bound` test is always what ends the loop, never the fuel. -/
def readStringFuel : Option Int → Nat
  | none => 1
  | some b => b.toNat + 1

/-- `readString` (`src/src/utils.ts` lines 3-39).  `length` and `index`
are the second and third parameters (JS numbers, `index` possibly
`undefined`), `bytes` the optional fixed byte count.  When `bytes` is
`undefined` the bound becomes `Math.floor(length - index)`, which is NaN
when `index` is `undefined`.  The final text-decoding step
(`String.fromCharCode` and the UTF-8 reinterpretation) does not touch the
cursor and is not modelled: the raw appended char codes are returned. -/
def readString (view : List Nat) (bigEndian : Bool) (c : Cursor) (length : Int)
    (index : Option Int) (utf8 : Bool) (bytes : Option Int) :
    Except StreamError (List Int × Cursor) :=
  if bytes = some 0 then .ok ([], c)
  else
    let fixedLength := jsTruthy bytes
    let bound : Option Int :=
      match bytes with
      | some b => some b
      | none =>
        match index with
        | some ix => some (length - ix)
        | none => none
    readStringLoop view bigEndian fixedLength bound (readStringFuel bound) c 0 true []

/-- `utils.readASCIIString(stream, length, index, bytes?)`
(`src/src/utils.ts` line 77). -/
def readASCIIString (view : List Nat) (bigEndian : Bool) (c : Cursor) (length : Int)
    (index : Option Int) (bytes : Option Int) : Except StreamError (List Int × Cursor) :=
  readString view bigEndian c length index false bytes

/-- `BitStream.readASCIIString = (bytes) => readASCIIString(this, bytes)`
(`src/src/BitStream.ts` line 138, identically `src/unnamed/part_000` line
141): the call site passes only two arguments, so the requested byte
count lands in utils' `length` parameter while `index` and the fixed
`bytes` parameter are `undefined`. -/
def BitStream.readASCIIString (view : List Nat) (bigEndian : Bool) (c : Cursor)
    (bytes : Nat) : Except StreamError (List Int × Cursor) :=
  BitBuffer.readASCIIString view bigEndian c (bytes : Int) none none

/-- The write loop shared by `writeASCIIString` and `writeUTF8String`
(`src/src/utils.ts` lines 84-86 and 95-97): for `i` in `[0, length)`
write `i < arr.length ? arr[i] : 0x00` through the cursor's `writeUint8`;
`fuel` bounds the iterations. -/
def writeStringLoop (bigEndian : Bool) (arr : List Int) (length : Int) :
    Nat → List Nat → Cursor → Nat → Except StreamError (Cursor × List Nat)
  | 0, view, c, _ => .ok (c, view)
  | fuel + 1, view, c, i =>
    if (i : Int) < length then
      match writeUint8 view bigEndian c (if i < arr.length then arr.getD i 0 else 0) with
      | (.error e, _, _) => .error e
      | (.ok _, c', view') => writeStringLoop bigEndian arr length fuel view' c' (i + 1)
    else .ok (c, view)

/-- `utils.writeASCIIString` (`src/src/utils.ts` lines 80-87).  The string
is modelled as its list of UTF-16 code units (`charCodeAt` values);
`length = (bytes ?? 0) || string.length + 1`. -/
def writeASCIIString (view : List Nat) (bigEndian : Bool) (c : Cursor) (s : List Nat)
    (bytes : Option Int) : Except StreamError (Cursor × List Nat) :=
  let length : Int :=
    match bytes with
    | none => (s.length : Int) + 1
    | some b => if b = 0 then (s.length : Int) + 1 else b
  writeStringLoop bigEndian (s.map (fun u : Nat => (u : Int))) length (length.toNat + 1) view c 0

/-- `utils.stringToByteArray` (`src/src/utils.ts` lines 46-75): UTF-8
encoding of a list of UTF-16 code units.  All intermediate values are
below `2^21`, where the JS `>>`, `&`, `|` agree with the Nat operations. -/
def stringToByteArray : List Nat → List Nat
  | [] => []
  | u :: rest =>
    (if u ≤ 0x7f then [u]
     else if u ≤ 0x7ff then
       [(u >>> 6) ||| 0xc0, (u &&& 0x3f) ||| 0x80]
     else if u ≤ 0xffff then
       [(u >>> 12) ||| 0xe0, ((u >>> 6) &&& 0x3f) ||| 0x80, (u &&& 0x3f) ||| 0x80]
     else
       [(u >>> 18) ||| 0xf0, ((u >>> 12) &&& 0x3f) ||| 0x80,
        ((u >>> 6) &&& 0x3f) ||| 0x80, (u &&& 0x3f) ||| 0x80]) ++ stringToByteArray rest

/-- `utils.writeUTF8String` (`src/src/utils.ts` lines 89-98):
`length = (bytes ?? 0) || byteArray.length + 1`. -/
def writeUTF8String (view : List Nat) (bigEndian : Bool) (c : Cursor) (s : List Nat)
    (bytes : Option Int) : Except StreamError (Cursor × List Nat) :=
  let byteArray := stringToByteArray s
  let length : Int :=
    match bytes with
    | none => (byteArray.length : Int) + 1
    | some b => if b = 0 then (byteArray.length : Int) + 1 else b
  writeStringLoop bigEndian (byteArray.map (fun u : Nat => (u : Int))) length
    (length.toNat + 1) view c 0

/-! ### Specification-side helpers (not from the source) -/

/-- The whole buffer as one natural number in the little-endian bit
order: bit `p` of `bufValLE view` is bit `p % 8` of byte `p / 8`. -/
def bufValLE : List Nat → Nat
  | [] => 0
  | b :: rest => b + 256 * bufValLE rest

/-- The whole buffer as one natural number in the big-endian bit order:
byte 0 is the most significant, and within the stream bit `p` addresses
bit `7 - p % 8` of byte `p / 8` (the most significant first). -/
def bufValBE : List Nat → Nat
  | [] => 0
  | b :: rest => b * 2 ^ (8 * rest.length) + bufValBE rest

/-- The bit of the buffer addressed by stream position `p` under the
engine's bit-addressing convention for the given endianness. -/
def streamBit (view : List Nat) (bigEndian : Bool) (p : Nat) : Nat :=
  if bigEndian then view.getD (p / 8) 0 / 2 ^ (7 - p % 8) % 2
  else view.getD (p / 8) 0 / 2 ^ (p % 8) % 2

/-- The values representable in `w` bits, signed or unsigned
(spec section 8, round-trip property). -/
def Representable (signed : Bool) (w : Nat) (v : Int) : Prop :=
  if signed then -(2 ^ (w - 1) : Nat) ≤ v ∧ v < ((2 ^ (w - 1) : Nat) : Int)
  else 0 ≤ v ∧ v < ((2 ^ w : Nat) : Int)

/-- Sequentially writing a list of bytes through the cursor's
`writeUint8` — the reference behaviour for the fixed-length-0 claim. -/
def writeBytesSpec (bigEndian : Bool) : List Int → List Nat → Cursor →
    Except StreamError (Cursor × List Nat)
  | [], view, c => .ok (c, view)
  | b :: rest, view, c =>
    match writeUint8 view bigEndian c b with
    | (.error e, _, _) => .error e
    | (.ok _, c', view') => writeBytesSpec bigEndian rest view' c'

/-- The cursor-advance contract of an auto-advancing typed read: a
boundary-crossing read fails with `endOfStream`, a successful read
advances `index` by exactly `size` (window and start untouched), and any
failure leaves the cursor unchanged. -/
def ReaderOk {α : Type} (op : List Nat → Bool → Cursor → Except StreamError α × Cursor)
    (size : Nat) : Prop :=
  ∀ view bigEndian c,
    (c.index + size > c.length → op view bigEndian c = (.error .endOfStream, c)) ∧
    (∀ x, (op view bigEndian c).1 = .ok x →
      (op view bigEndian c).2 = { c with index := c.index + size }) ∧
    (∀ e, (op view bigEndian c).1 = .error e → (op view bigEndian c).2 = c)

/-- The cursor-advance contract of an auto-advancing typed write: a
successful write advances `index` by exactly `size` (window and start
untouched), and a failure leaves the cursor and the buffer unchanged. -/
def WriterOk {β : Type}
    (op : List Nat → Bool → Cursor → β → Except StreamError Unit × Cursor × List Nat)
    (size : Nat) : Prop :=
  ∀ view bigEndian c value,
    ((op view bigEndian c value).1 = .ok () →
      (op view bigEndian c value).2.1 = { c with index := c.index + size }) ∧
    (∀ e, (op view bigEndian c value).1 = .error e →
      (op view bigEndian c value).2.1 = c ∧ (op view bigEndian c value).2.2 = view)

/-! ### Basic facts about the JS 32-bit operations -/

theorem two_pow_32 : (4294967296 : Nat) = 2 ^ 32 := by norm_num

theorem toUint32_lt (x : Int) : toUint32 x < 4294967296 := by
  unfold toUint32; omega

theorem toUint32_nonneg_eq (x : Int) : (toUint32 x : Int) = x % 4294967296 := by
  unfold toUint32; omega

theorem ofPat_toUint32 (p : Nat) (h : p < 4294967296) : toUint32 (ofPat p) = p := by
  unfold ofPat toUint32
  split <;> omega

theorem toUint32_natCast (n : Nat) : toUint32 (n : Int) = n % 4294967296 := by
  unfold toUint32; omega

theorem toUint32_natCast_small (n : Nat) (h : n < 4294967296) : toUint32 (n : Int) = n := by
  rw [toUint32_natCast, Nat.mod_eq_of_lt h]

theorem toUint32_jsAnd (a b : Int) : toUint32 (jsAnd a b) = toUint32 a &&& toUint32 b :=
  ofPat_toUint32 _ (lt_of_le_of_lt Nat.and_le_left (toUint32_lt a))

theorem toUint32_jsOr (a b : Int) : toUint32 (jsOr a b) = toUint32 a ||| toUint32 b :=
  ofPat_toUint32 _ (by
    rw [two_pow_32]
    exact Nat.or_lt_two_pow (two_pow_32 ▸ toUint32_lt a) (two_pow_32 ▸ toUint32_lt b))

theorem toUint32_jsXor (a b : Int) : toUint32 (jsXor a b) = toUint32 a ^^^ toUint32 b :=
  ofPat_toUint32 _ (by
    rw [two_pow_32]
    exact Nat.xor_lt_two_pow (two_pow_32 ▸ toUint32_lt a) (two_pow_32 ▸ toUint32_lt b))

theorem toUint32_jsNot (a : Int) : toUint32 (jsNot a) = toUint32 a ^^^ 4294967295 :=
  ofPat_toUint32 _ (by
    rw [two_pow_32]
    exact Nat.xor_lt_two_pow (two_pow_32 ▸ toUint32_lt a) (by norm_num))

theorem toUint32_jsShl (a b : Int) :
    toUint32 (jsShl a b) = (toUint32 a <<< (toUint32 b % 32)) % 4294967296 :=
  ofPat_toUint32 _ (Nat.mod_lt _ (by norm_num))

theorem jsShrU_def (a b : Int) :
    jsShrU a b = ((toUint32 a >>> (toUint32 b % 32) : Nat) : Int) := rfl

theorem jsShrU_zero (a : Int) : jsShrU a 0 = (toUint32 a : Int) := by
  simp [jsShrU, toUint32]

theorem shift_count_small (k : Nat) (h : k < 32) : toUint32 (k : Int) % 32 = k := by
  rw [toUint32_natCast_small k (by omega), Nat.mod_eq_of_lt h]

theorem toUint32_jsShrS_small (n : Nat) (hn : n < 2147483648) (w : Nat) (hw : w < 32) :
    toUint32 (jsShrS (n : Int) (w : Int)) = n / 2 ^ w := by
  unfold jsShrS
  rw [shift_count_small w hw, toUint32_natCast_small n (by omega)]
  rw [ofPat, if_pos hn]
  have hcast : ((n : Int) / ((2 : Int) ^ w)) = ((n / 2 ^ w : Nat) : Int) := by
    push_cast
    rfl
  rw [hcast, toUint32_natCast_small]
  calc n / 2 ^ w ≤ n := Nat.div_le_self _ _
    _ < 4294967296 := by omega

theorem toUint32_jsShrS_mod (a : Int) (w m : Nat) (hw : w < 32) (hwm : w + m ≤ 32) :
    toUint32 (jsShrS a (w : Int)) % 2 ^ m = toUint32 a / 2 ^ w % 2 ^ m := by
  have hplt : toUint32 a < 4294967296 := toUint32_lt a
  unfold jsShrS
  rw [shift_count_small w hw]
  set p := toUint32 a with hp
  by_cases hc : p < 2147483648
  · rw [ofPat, if_pos hc]
    have hcast : ((p : Int) / ((2 : Int) ^ w)) = ((p / 2 ^ w : Nat) : Int) := by
      push_cast
      rfl
    rw [hcast, toUint32_natCast_small _ (by
      calc p / 2 ^ w ≤ p := Nat.div_le_self _ _
        _ < 4294967296 := by omega)]
  · rw [ofPat, if_neg hc]
    set q := p / 2 ^ w with hqdef
    set r := p % 2 ^ w with hrdef
    set B := (2 : Nat) ^ (32 - w) with hBdef
    have hw32 : B * 2 ^ w = 4294967296 := by
      rw [hBdef, ← pow_add, Nat.sub_add_cancel (by omega), two_pow_32]
    have hqr : 2 ^ w * q + r = p := Nat.div_add_mod p (2 ^ w)
    have hrlt : r < 2 ^ w := Nat.mod_lt p (by positivity)
    have hqlt : q < B := by
      rw [hqdef, hBdef]
      apply Nat.div_lt_of_lt_mul
      rw [Nat.mul_comm, ← hBdef, hw32]
      omega
    have hBle : B ≤ 4294967296 := by
      calc B ≤ B * 2 ^ w := Nat.le_mul_of_pos_right B (by positivity)
        _ = 4294967296 := hw32
    have hqr2 : q * 2 ^ w + r = p := by
      rw [Nat.mul_comm q (2 ^ w)]
      exact hqr
    have hA : (q : Int) * (2 : Int) ^ w + (r : Int) = (p : Int) := by
      exact_mod_cast hqr2
    have hBc : ((2 : Int) ^ (32 - w)) * (2 : Int) ^ w = 4294967296 := by
      exact_mod_cast hw32
    have hq : (p : Int) - 4294967296 =
        (r : Int) + ((q : Int) - (2 : Int) ^ (32 - w)) * (2 : Int) ^ w := by
      rw [sub_mul]
      linarith
    rw [hq, Int.add_mul_ediv_right _ _ (by positivity)]
    have hr0 : (r : Int) / (2 : Int) ^ w = 0 := by
      apply Int.ediv_eq_zero_of_lt (by positivity)
      exact_mod_cast hrlt
    rw [hr0, zero_add]
    have hBe : (2 : Int) ^ (32 - w) = (B : Int) := by
      rw [hBdef]
      push_cast
      rfl
    have hgen : ∀ y z : Nat, y < z → z ≤ 4294967296 →
        toUint32 ((y : Int) - (z : Int)) = y + (4294967296 - z) := by
      intro y z h1 h2
      unfold toUint32
      omega
    have hval : toUint32 ((q : Int) - (2 : Int) ^ (32 - w)) = q + (4294967296 - B) := by
      rw [hBe]
      exact hgen q B hqlt hBle
    rw [hval]
    have hdvd : (2 : Nat) ^ m ∣ 4294967296 - B := by
      have h1 : (2 : Nat) ^ m ∣ B := hBdef ▸ pow_dvd_pow 2 (by omega)
      have h2 : (2 : Nat) ^ m ∣ 4294967296 := by
        rw [two_pow_32]; exact pow_dvd_pow 2 (by omega)
      exact Nat.dvd_sub' h2 h1
    obtain ⟨t, ht⟩ := hdvd
    rw [ht, Nat.mul_comm, Nat.add_mul_mod_self_right]

/-! ### Generic arithmetic helpers for bit spans -/

theorem testBit_mul_two_pow (b k j : Nat) :
    (b * 2 ^ k).testBit j = (decide (j ≥ k) && b.testBit (j - k)) := by
  rw [← Nat.shiftLeft_eq, Nat.testBit_shiftLeft]

theorem testBit_allones32 (j : Nat) : (4294967295 : Nat).testBit j = decide (j < 32) := by
  have h : (4294967295 : Nat) = 2 ^ 32 - 1 := by norm_num
  rw [h, Nat.testBit_two_pow_sub_one]

theorem testBit_255 (j : Nat) : (255 : Nat).testBit j = decide (j < 8) := by
  have h : (255 : Nat) = 2 ^ 8 - 1 := by norm_num
  rw [h, Nat.testBit_two_pow_sub_one]

theorem lor_add_high (a b k : Nat) (h : a < 2 ^ k) : a ||| b * 2 ^ k = a + b * 2 ^ k := by
  apply Nat.eq_of_testBit_eq
  intro j
  rw [Nat.testBit_lor, testBit_mul_two_pow,
    show a + b * 2 ^ k = 2 ^ k * b + a by ring, Nat.testBit_mul_pow_two_add _ h]
  by_cases hj : j < k
  · simp [hj, show ¬(k ≤ j) by omega]
  · have ha : a.testBit j = false :=
      Nat.testBit_lt_two_pow (lt_of_lt_of_le h (Nat.pow_le_pow_right (by norm_num) (by omega)))
    simp [hj, ha, show k ≤ j by omega]

theorem mod_pow_split (x a b : Nat) :
    x % 2 ^ (a + b) = x % 2 ^ a + (x / 2 ^ a % 2 ^ b) * 2 ^ a := by
  rw [pow_add, Nat.mod_mul]
  ring

theorem decomp_low (L M H a b : Nat) (hL : L < 2 ^ a) :
    (L + M * 2 ^ a + H * 2 ^ (a + b)) % 2 ^ a = L := by
  rw [pow_add, show H * (2 ^ a * 2 ^ b) = H * 2 ^ b * 2 ^ a by ring,
    Nat.add_mul_mod_self_right, Nat.add_mul_mod_self_right, Nat.mod_eq_of_lt hL]

theorem decomp_div (L M H a b : Nat) (hL : L < 2 ^ a) :
    (L + M * 2 ^ a + H * 2 ^ (a + b)) / 2 ^ a = M + H * 2 ^ b := by
  rw [pow_add, show L + M * 2 ^ a + H * (2 ^ a * 2 ^ b) = L + (M + H * 2 ^ b) * 2 ^ a by ring,
    Nat.add_mul_div_right _ _ (by positivity), Nat.div_eq_of_lt hL, Nat.zero_add]

theorem decomp_mid (L M H a b : Nat) (hL : L < 2 ^ a) (hM : M < 2 ^ b) :
    (L + M * 2 ^ a + H * 2 ^ (a + b)) / 2 ^ a % 2 ^ b = M := by
  rw [decomp_div L M H a b hL, Nat.add_mul_mod_self_right, Nat.mod_eq_of_lt hM]

theorem decomp_high (L M H a b : Nat) (hL : L < 2 ^ a) (hM : M < 2 ^ b) :
    (L + M * 2 ^ a + H * 2 ^ (a + b)) / 2 ^ (a + b) = H := by
  have hsum : L + M * 2 ^ a < 2 ^ (a + b) := by
    calc L + M * 2 ^ a < 2 ^ a + M * 2 ^ a := by omega
      _ = (M + 1) * 2 ^ a := by ring
      _ ≤ 2 ^ b * 2 ^ a := Nat.mul_le_mul_right _ (by omega)
      _ = 2 ^ (a + b) := by rw [← pow_add, Nat.add_comm]
  rw [show L + M * 2 ^ a + H * 2 ^ (a + b) = (L + M * 2 ^ a) + H * 2 ^ (a + b) by ring,
    Nat.add_mul_div_right _ _ (by positivity), Nat.div_eq_of_lt hsum, Nat.zero_add]

theorem div_mod_div_mod (x a b c d : Nat) (h : c + d ≤ b) :
    x / 2 ^ a % 2 ^ b / 2 ^ c % 2 ^ d = x / 2 ^ (a + c) % 2 ^ d := by
  have hb : (2 : Nat) ^ b = 2 ^ c * 2 ^ (b - c) := by
    rw [← pow_add]
    congr 1
    omega
  rw [hb, Nat.mod_mul_right_div_self, Nat.div_div_eq_div_mul, ← pow_add,
    Nat.mod_mod_of_dvd _ (pow_dvd_pow 2 (by omega))]

theorem mod_div_mod (x b c d : Nat) (h : c + d ≤ b) :
    x % 2 ^ b / 2 ^ c % 2 ^ d = x / 2 ^ c % 2 ^ d := by
  have := div_mod_div_mod x 0 b c d h
  simpa using this

/-! ### Mask patterns of the source's `~(0xFF << r)` and `~(~0 << w)` -/

theorem toUint32_jsShl_small (X : Int) (sh : Nat) (h : sh < 32) :
    toUint32 (jsShl X (sh : Int)) = toUint32 X <<< sh % 4294967296 := by
  rw [toUint32_jsShl, shift_count_small sh h]

theorem mask255_pat (r : Nat) (hr : r < 32) (j : Nat) :
    (toUint32 (jsNot (jsShl 255 (r : Int)))).testBit j =
      (decide (j < 32) && !(decide (r ≤ j) && decide (j < r + 8))) := by
  have h255 : toUint32 (255 : Int) = 255 := by decide
  rw [toUint32_jsNot, toUint32_jsShl_small _ _ hr, h255, two_pow_32, Nat.testBit_xor,
    Nat.testBit_mod_two_pow, Nat.testBit_shiftLeft, testBit_255, testBit_allones32]
  by_cases h32 : j < 32
  · by_cases hrj : r ≤ j
    · by_cases hj8 : j < r + 8
      · simp [h32, hrj, hj8, show j - r < 8 by omega]
      · simp [h32, hrj, hj8, show ¬(j - r < 8) by omega]
    · simp [h32, hrj]
  · simp [h32]

theorem maskBE_pat (w : Nat) (hw : w < 32) :
    toUint32 (jsNot (jsShl (jsNot 0) (w : Int))) = 2 ^ w - 1 := by
  have h0 : toUint32 (jsNot 0) = 4294967295 := by decide
  apply Nat.eq_of_testBit_eq
  intro j
  rw [toUint32_jsNot, toUint32_jsShl_small _ _ hw, h0, two_pow_32, Nat.testBit_xor,
    Nat.testBit_mod_two_pow, Nat.testBit_shiftLeft, testBit_allones32, testBit_allones32,
    Nat.testBit_two_pow_sub_one]
  by_cases h32 : j < 32
  · by_cases hwj : w ≤ j
    · simp [h32, hwj, show ¬(j < w) by omega, show j - w < 32 by omega]
    · simp [h32, hwj, show j < w by omega]
  · simp [h32, show ¬(j < w) by omega]

/-- The read-modify-write of one byte performed by an iteration of
`setBits`: clearing the `wr` destination bits at in-byte position `sh`
via the complement of a mask `M`, OR-ing in shifted write bits `W`, and
truncating to a byte on store.  `V` is the value whose low `wr` bits the
write bits carry. -/
theorem byte_update (byte sh wr : Nat) (V : Nat) (W M : Int)
    (hbyte : byte < 256) (hwr : 0 < wr) (hsw : sh + wr ≤ 8)
    (HW : ∀ t, t < 8 - sh → (toUint32 W).testBit t = (decide (t < wr) && V.testBit t))
    (HM : ∀ t, t < 8 - sh → (toUint32 M).testBit t = decide (t < wr)) :
    toUint8 (jsOr (jsAnd (byte : Int) (jsNot (jsShl M (sh : Int)))) (jsShl W (sh : Int)))
      = byte % 2 ^ sh + V % 2 ^ wr * 2 ^ sh + byte / 2 ^ (sh + wr) * 2 ^ (sh + wr) := by
  have hsh32 : sh < 32 := by omega
  have hRHS : byte % 2 ^ sh + V % 2 ^ wr * 2 ^ sh + byte / 2 ^ (sh + wr) * 2 ^ (sh + wr)
      = (byte % 2 ^ sh ||| V % 2 ^ wr * 2 ^ sh) ||| byte / 2 ^ (sh + wr) * 2 ^ (sh + wr) := by
    rw [lor_add_high _ _ _ (Nat.mod_lt _ (by positivity))]
    rw [lor_add_high]
    calc byte % 2 ^ sh + V % 2 ^ wr * 2 ^ sh
        < 2 ^ sh + V % 2 ^ wr * 2 ^ sh := by
          have := Nat.mod_lt byte (show 0 < 2 ^ sh by positivity)
          omega
      _ = (V % 2 ^ wr + 1) * 2 ^ sh := by ring
      _ ≤ 2 ^ wr * 2 ^ sh := Nat.mul_le_mul_right _ (by
          have := Nat.mod_lt V (show 0 < 2 ^ wr by positivity)
          omega)
      _ = 2 ^ (sh + wr) := by rw [← pow_add, Nat.add_comm]
  rw [hRHS]
  unfold toUint8
  rw [toUint32_jsOr, toUint32_jsAnd, toUint32_natCast_small byte (by omega),
    toUint32_jsShl_small _ _ hsh32]
  apply Nat.eq_of_testBit_eq
  intro j
  rw [show (256 : Nat) = 2 ^ 8 by norm_num, Nat.testBit_mod_two_pow]
  rw [Nat.testBit_lor, Nat.testBit_land, Nat.testBit_lor, Nat.testBit_lor,
    toUint32_jsNot, toUint32_jsShl_small _ _ hsh32, two_pow_32, Nat.testBit_xor,
    Nat.testBit_mod_two_pow, Nat.testBit_mod_two_pow, Nat.testBit_shiftLeft,
    Nat.testBit_shiftLeft, testBit_allones32, testBit_mul_two_pow, testBit_mul_two_pow,
    Nat.testBit_mod_two_pow, Nat.testBit_mod_two_pow]
  by_cases hj8 : j < 8
  · by_cases hjsh : j < sh
    · simp [hj8, hjsh, show ¬ sh ≤ j by omega, show j < 32 by omega,
        show ¬ sh + wr ≤ j by omega]
    · have ht : j - sh < 8 - sh := by omega
      have hWt := HW (j - sh) ht
      have hMt := HM (j - sh) ht
      by_cases hjw : j < sh + wr
      · simp [hj8, hjsh, hWt, hMt, show sh ≤ j by omega, show j < 32 by omega,
          show j - sh < wr by omega, show ¬ sh + wr ≤ j by omega]
      · have hbd : (byte / 2 ^ (sh + wr)).testBit (j - (sh + wr)) = byte.testBit j := by
          rw [← Nat.shiftRight_eq_div_pow, Nat.testBit_shiftRight]
          congr 1
          omega
        simp [hj8, hjsh, hWt, hMt, hbd, show sh ≤ j by omega, show j < 32 by omega,
          show ¬ (j - sh < wr) by omega, show sh + wr ≤ j by omega]
  · have hbd : (byte / 2 ^ (sh + wr)).testBit (j - (sh + wr)) = byte.testBit j := by
      rw [← Nat.shiftRight_eq_div_pow, Nat.testBit_shiftRight]
      congr 1
      omega
    have hdead : byte.testBit j = false :=
      Nat.testBit_lt_two_pow (lt_of_lt_of_le hbyte (by
        calc (256 : Nat) = 2 ^ 8 := by norm_num
          _ ≤ 2 ^ j := Nat.pow_le_pow_right (by norm_num) (by omega)))
    simp [hj8, hbd, hdead, show ¬ j < sh by omega, show ¬ (j - sh < wr) by omega,
      show sh + wr ≤ j by omega]

/-- `x & ~(0xFF << r)` for a byte-sized `x` keeps exactly the low `r` bits. -/
theorem land_mask255 (x r : Nat) (hx : x < 256) (hr : r ≤ 8) :
    x &&& toUint32 (jsNot (jsShl 255 (r : Int))) = x % 2 ^ r := by
  apply Nat.eq_of_testBit_eq
  intro j
  rw [Nat.testBit_land, mask255_pat r (by omega), Nat.testBit_mod_two_pow]
  by_cases hjr : j < r
  · simp [hjr, show j < 32 by omega, show ¬ r ≤ j by omega]
  · by_cases hj8 : j < r + 8
    · simp [hjr, hj8, show j < 32 by omega, show r ≤ j by omega]
    · have : x.testBit j = false :=
        Nat.testBit_lt_two_pow (lt_of_lt_of_le hx (by
          calc (256 : Nat) = 2 ^ 8 := by norm_num
            _ ≤ 2 ^ j := Nat.pow_le_pow_right (by norm_num) (by omega)))
      simp [this, hjr]

/-- The in-byte bits of the LE-branch `writeBits = value & ~(0xFF << wr)`. -/
theorem writeBits_le_testBit (value : Int) (wr : Nat) (hwr : wr < 32) (t : Nat) (ht : t < 8) :
    (toUint32 (jsAnd value (jsNot (jsShl 255 (wr : Int))))).testBit t =
      (decide (t < wr) && (toUint32 value).testBit t) := by
  rw [toUint32_jsAnd, Nat.testBit_land, mask255_pat wr hwr]
  by_cases htw : t < wr
  · simp [htw, show t < 32 by omega, show ¬ wr ≤ t by omega]
  · simp [htw, show t < 32 by omega, show wr ≤ t by omega, show t < wr + 8 by omega]

/-- The bits of the BE-branch `writeBits = shifted & ~(~0 << wr)`. -/
theorem writeBits_be_testBit (S : Int) (wr : Nat) (hwr : wr < 32) (t : Nat) :
    (toUint32 (jsAnd S (jsNot (jsShl (jsNot 0) (wr : Int))))).testBit t =
      (decide (t < wr) && (toUint32 S).testBit t) := by
  rw [toUint32_jsAnd, Nat.testBit_land, maskBE_pat wr hwr, Nat.testBit_two_pow_sub_one]
  rw [Bool.and_comm]

/-- The in-byte bits of the LE mask `~(0xFF << wr)` itself. -/
theorem mask255_low_testBit (wr : Nat) (hwr : wr < 32) (t : Nat) (ht : t < 8) :
    (toUint32 (jsNot (jsShl 255 (wr : Int)))).testBit t = decide (t < wr) := by
  rw [mask255_pat wr hwr]
  by_cases htw : t < wr
  · simp [htw, show t < 32 by omega, show ¬ wr ≤ t by omega]
  · simp [htw, show t < 32 by omega, show wr ≤ t by omega, show t < wr + 8 by omega]

/-- The bits of the BE mask `~(~0 << wr)` itself. -/
theorem maskBE_testBit (wr : Nat) (hwr : wr < 32) (t : Nat) :
    (toUint32 (jsNot (jsShl (jsNot 0) (wr : Int)))).testBit t = decide (t < wr) := by
  rw [maskBE_pat wr hwr, Nat.testBit_two_pow_sub_one]

/-- The LE-branch chunk read of `getBits`: the `read` bits of the current
byte starting at in-byte position `bo`. -/
theorem readBits_le_chunk (byte bo r : Nat) (hbyte : byte < 256) (hbo : bo < 8)
    (hr : r ≤ 8 - bo) :
    toUint32 (jsAnd (jsShrS (byte : Int) (bo : Int)) (jsNot (jsShl 255 (r : Int)))) =
      byte / 2 ^ bo % 2 ^ r := by
  rw [toUint32_jsAnd, toUint32_jsShrS_small byte (by omega) bo (by omega)]
  exact land_mask255 _ r (lt_of_le_of_lt (Nat.div_le_self _ _) hbyte) (by omega)

/-- The BE-branch chunk read of `getBits`: the `read` bits of the current
byte ending at in-byte position `8 - bo`. -/
theorem readBits_be_chunk (byte bo r : Nat) (hbyte : byte < 256) (hbo : bo < 8)
    (hr : r ≤ 8 - bo) :
    toUint32 (jsAnd (jsShrS (byte : Int) ((8 - r - bo : Nat) : Int)) (jsNot (jsShl 255 (r : Int)))) =
      byte / 2 ^ (8 - r - bo) % 2 ^ r := by
  rw [toUint32_jsAnd, toUint32_jsShrS_small byte (by omega) (8 - r - bo) (by omega)]
  exact land_mask255 _ r (lt_of_le_of_lt (Nat.div_le_self _ _) hbyte) (by omega)

/-! ### The buffer as a single natural number -/

theorem Bytes_cons_head {b : Nat} {rest : List Nat} (h : Bytes (b :: rest)) : b < 256 :=
  h b (List.mem_cons_self b rest)

theorem Bytes_cons_tail {b : Nat} {rest : List Nat} (h : Bytes (b :: rest)) : Bytes rest :=
  fun x hx => h x (List.mem_cons_of_mem _ hx)

theorem Bytes_set (view : List Nat) (hB : Bytes view) (q c : Nat) (hc : c < 256) :
    Bytes (view.set q c) := by
  intro x hx
  rcases List.mem_or_eq_of_mem_set hx with h | h
  · exact hB x h
  · omega

theorem cons_mod (b Y k : Nat) (hb : b < 256) :
    (b + 256 * Y) % 2 ^ (8 + k) = b + 256 * (Y % 2 ^ k) := by
  rw [pow_add, show (2:Nat) ^ 8 = 256 by norm_num, Nat.mod_mul,
    Nat.add_mul_mod_self_left, Nat.mod_eq_of_lt hb,
    Nat.add_mul_div_left _ _ (by norm_num : (0:Nat) < 256),
    Nat.div_eq_of_lt hb, Nat.zero_add]

theorem cons_div (b Y k : Nat) (hb : b < 256) :
    (b + 256 * Y) / 2 ^ (8 + k) = Y / 2 ^ k := by
  rw [pow_add, show (2:Nat) ^ 8 = 256 by norm_num, ← Nat.div_div_eq_div_mul,
    Nat.add_mul_div_left _ _ (by norm_num : (0:Nat) < 256),
    Nat.div_eq_of_lt hb, Nat.zero_add]

theorem bufValLE_lt (view : List Nat) (hB : Bytes view) :
    bufValLE view < 2 ^ (8 * view.length) := by
  induction view with
  | nil => simp [bufValLE]
  | cons b rest ih =>
    have hb : b < 256 := Bytes_cons_head hB
    have hr := ih (Bytes_cons_tail hB)
    simp only [bufValLE, List.length_cons]
    calc b + 256 * bufValLE rest < 256 + 256 * bufValLE rest := by omega
      _ = 256 * (bufValLE rest + 1) := by ring
      _ ≤ 256 * 2 ^ (8 * rest.length) := Nat.mul_le_mul_left _ (by omega)
      _ = 2 ^ (8 * (rest.length + 1)) := by
          rw [show 8 * (rest.length + 1) = 8 + 8 * rest.length by ring, pow_add]
          norm_num

theorem getD_eq_bufValLE (view : List Nat) (hB : Bytes view) (j : Nat) :
    view.getD j 0 = bufValLE view / 2 ^ (8 * j) % 256 := by
  induction view generalizing j with
  | nil => simp [bufValLE]
  | cons b rest ih =>
    have hb : b < 256 := Bytes_cons_head hB
    cases j with
    | zero =>
      simp only [List.getD_cons_zero, Nat.mul_zero, pow_zero, Nat.div_one, bufValLE]
      rw [Nat.add_mul_mod_self_left, Nat.mod_eq_of_lt hb]
    | succ j' =>
      simp only [List.getD_cons_succ, bufValLE]
      rw [show 8 * (j' + 1) = 8 + 8 * j' by ring, cons_div b _ _ hb]
      exact ih (Bytes_cons_tail hB) j'

theorem bufValLE_set_parts (view : List Nat) (hB : Bytes view) (q c : Nat)
    (hq : q < view.length) (hc : c < 256) :
    bufValLE (view.set q c) % 2 ^ (8 * q) = bufValLE view % 2 ^ (8 * q) ∧
    bufValLE (view.set q c) / 2 ^ (8 * q) % 256 = c ∧
    bufValLE (view.set q c) / 2 ^ (8 * q + 8) = bufValLE view / 2 ^ (8 * q + 8) := by
  induction view generalizing q with
  | nil => simp at hq
  | cons b rest ih =>
    have hb : b < 256 := Bytes_cons_head hB
    have hV := bufValLE_lt rest (Bytes_cons_tail hB)
    cases q with
    | zero =>
      refine ⟨by simp [Nat.mod_one], ?_, ?_⟩
      · simp only [List.set_cons_zero, Nat.mul_zero, pow_zero, Nat.div_one, bufValLE]
        rw [Nat.add_mul_mod_self_left, Nat.mod_eq_of_lt hc]
      · simp only [List.set_cons_zero, bufValLE]
        rw [show 8 * 0 + 8 = 8 + 0 by ring, cons_div b _ _ hb, cons_div c _ _ hc]
    | succ q' =>
      obtain ⟨ih1, ih2, ih3⟩ := ih (Bytes_cons_tail hB) q' (by simpa using hq)
      refine ⟨?_, ?_, ?_⟩
      · simp only [List.set_cons_succ, bufValLE]
        rw [show 8 * (q' + 1) = 8 + 8 * q' by ring, cons_mod b _ _ hb, cons_mod b _ _ hb, ih1]
      · simp only [List.set_cons_succ, bufValLE]
        rw [show 8 * (q' + 1) = 8 + 8 * q' by ring, cons_div b _ _ hb, ih2]
      · simp only [List.set_cons_succ, bufValLE]
        rw [show 8 * (q' + 1) + 8 = 8 + (8 * q' + 8) by ring, cons_div b _ _ hb,
          cons_div b _ _ hb, ih3]

theorem bufValBE_lt (view : List Nat) (hB : Bytes view) :
    bufValBE view < 2 ^ (8 * view.length) := by
  induction view with
  | nil => simp [bufValBE]
  | cons b rest ih =>
    have hb : b < 256 := Bytes_cons_head hB
    have hr := ih (Bytes_cons_tail hB)
    simp only [bufValBE, List.length_cons]
    calc b * 2 ^ (8 * rest.length) + bufValBE rest
        < b * 2 ^ (8 * rest.length) + 2 ^ (8 * rest.length) := by omega
      _ = (b + 1) * 2 ^ (8 * rest.length) := by ring
      _ ≤ 256 * 2 ^ (8 * rest.length) := Nat.mul_le_mul_right _ (by omega)
      _ = 2 ^ (8 * (rest.length + 1)) := by
          rw [show 8 * (rest.length + 1) = 8 + 8 * rest.length by ring, pow_add]
          norm_num

theorem getD_eq_bufValBE (view : List Nat) (hB : Bytes view) (j : Nat)
    (hj : j < view.length) :
    view.getD j 0 = bufValBE view / 2 ^ (8 * (view.length - 1 - j)) % 256 := by
  induction view generalizing j with
  | nil => simp at hj
  | cons b rest ih =>
    have hb : b < 256 := Bytes_cons_head hB
    have hV := bufValBE_lt rest (Bytes_cons_tail hB)
    cases j with
    | zero =>
      simp only [List.getD_cons_zero, List.length_cons, bufValBE]
      rw [show rest.length + 1 - 1 - 0 = rest.length by omega,
        show b * 2 ^ (8 * rest.length) + bufValBE rest
          = bufValBE rest + b * 2 ^ (8 * rest.length) by ring,
        Nat.add_mul_div_right _ _ (by positivity), Nat.div_eq_of_lt hV, Nat.zero_add,
        Nat.mod_eq_of_lt hb]
    | succ j' =>
      have hj' : j' < rest.length := by simpa using hj
      simp only [List.getD_cons_succ, List.length_cons, bufValBE]
      have hK : 8 * (rest.length + 1 - 1 - (j' + 1)) = 8 * (rest.length - 1 - j') := by
        omega
      rw [hK]
      have hpow : 2 ^ (8 * rest.length - 8 * (rest.length - 1 - j') - 8) * 256
          * 2 ^ (8 * (rest.length - 1 - j')) = 2 ^ (8 * rest.length) := by
        rw [show (256 : Nat) = 2 ^ 8 by norm_num, ← pow_add, ← pow_add]
        congr 1
        omega
      have hsplit : b * 2 ^ (8 * rest.length) + bufValBE rest
          = bufValBE rest + (b * 2 ^ (8 * rest.length - 8 * (rest.length - 1 - j') - 8) * 256)
            * 2 ^ (8 * (rest.length - 1 - j')) := by
        calc b * 2 ^ (8 * rest.length) + bufValBE rest
            = bufValBE rest + b * (2 ^ (8 * rest.length - 8 * (rest.length - 1 - j') - 8) * 256
              * 2 ^ (8 * (rest.length - 1 - j'))) := by rw [hpow]; ring
          _ = bufValBE rest + (b * 2 ^ (8 * rest.length - 8 * (rest.length - 1 - j') - 8) * 256)
              * 2 ^ (8 * (rest.length - 1 - j')) := by ring
      rw [hsplit, Nat.add_mul_div_right _ _ (by positivity), Nat.add_mul_mod_self_right]
      exact ih (Bytes_cons_tail hB) j' hj'

theorem bufValBE_set_parts (view : List Nat) (hB : Bytes view) (q c : Nat)
    (hq : q < view.length) (hc : c < 256) :
    bufValBE (view.set q c) % 2 ^ (8 * (view.length - 1 - q))
        = bufValBE view % 2 ^ (8 * (view.length - 1 - q)) ∧
    bufValBE (view.set q c) / 2 ^ (8 * (view.length - 1 - q)) % 256 = c ∧
    bufValBE (view.set q c) / 2 ^ (8 * (view.length - 1 - q) + 8)
        = bufValBE view / 2 ^ (8 * (view.length - 1 - q) + 8) := by
  induction view generalizing q with
  | nil => simp at hq
  | cons b rest ih =>
    have hb : b < 256 := Bytes_cons_head hB
    have hV := bufValBE_lt rest (Bytes_cons_tail hB)
    cases q with
    | zero =>
      have hK : rest.length + 1 - 1 - 0 = rest.length := by omega
      refine ⟨?_, ?_, ?_⟩
      · simp only [List.set_cons_zero, List.length_cons, bufValBE, hK]
        rw [show b * 2 ^ (8 * rest.length) + bufValBE rest
            = bufValBE rest + b * 2 ^ (8 * rest.length) by ring,
          show c * 2 ^ (8 * rest.length) + bufValBE rest
            = bufValBE rest + c * 2 ^ (8 * rest.length) by ring,
          Nat.add_mul_mod_self_right, Nat.add_mul_mod_self_right]
      · simp only [List.set_cons_zero, List.length_cons, bufValBE, hK]
        rw [show c * 2 ^ (8 * rest.length) + bufValBE rest
            = bufValBE rest + c * 2 ^ (8 * rest.length) by ring,
          Nat.add_mul_div_right _ _ (by positivity), Nat.div_eq_of_lt hV, Nat.zero_add,
          Nat.mod_eq_of_lt hc]
      · simp only [List.set_cons_zero, List.length_cons, bufValBE, hK]
        have hlt : ∀ x : Nat, x < 256 →
            x * 2 ^ (8 * rest.length) + bufValBE rest < 2 ^ (8 * rest.length + 8) := by
          intro x hx
          calc x * 2 ^ (8 * rest.length) + bufValBE rest
              < (x + 1) * 2 ^ (8 * rest.length) := by
                have : x * 2 ^ (8 * rest.length) + 2 ^ (8 * rest.length)
                    = (x + 1) * 2 ^ (8 * rest.length) := by ring
                omega
            _ ≤ 256 * 2 ^ (8 * rest.length) := Nat.mul_le_mul_right _ (by omega)
            _ = 2 ^ (8 * rest.length + 8) := by
                rw [pow_add]
                norm_num
                ring
        rw [Nat.div_eq_of_lt (hlt c hc), Nat.div_eq_of_lt (hlt b hb)]
    | succ q' =>
      have hq' : q' < rest.length := by simpa using hq
      obtain ⟨ih1, ih2, ih3⟩ := ih (Bytes_cons_tail hB) q' hq'
      have hKe : rest.length + 1 - 1 - (q' + 1) = rest.length - 1 - q' := by omega
      have hsplit : ∀ W : List Nat, W.length = rest.length →
          ∀ k8 : Nat, k8 + 8 ≤ 8 * rest.length →
          b * 2 ^ (8 * rest.length) + bufValBE W
            = bufValBE W + (b * 2 ^ (8 * rest.length - k8 - 8) * 256) * 2 ^ k8 := by
        intro W hW k8 hk8
        rw [show b * 2 ^ (8 * rest.length - k8 - 8) * 256 * 2 ^ k8
          = b * (2 ^ (8 * rest.length - k8 - 8) * 256 * 2 ^ k8) by ring]
        rw [show (256 : Nat) = 2 ^ 8 by norm_num, ← pow_add, ← pow_add,
          show 8 * rest.length - k8 - 8 + 8 + k8 = 8 * rest.length by omega]
        ring
      have hkb : 8 * (rest.length - 1 - q') + 8 ≤ 8 * rest.length := by omega
      refine ⟨?_, ?_, ?_⟩
      · simp only [List.set_cons_succ, List.length_cons, List.length_set, bufValBE, hKe]
        rw [hsplit _ (by simp) _ hkb, hsplit rest rfl _ hkb,
          Nat.add_mul_mod_self_right, Nat.add_mul_mod_self_right, ih1]
      · simp only [List.set_cons_succ, List.length_cons, List.length_set, bufValBE, hKe]
        rw [hsplit _ (by simp) _ hkb, Nat.add_mul_div_right _ _ (by positivity),
          show b * 2 ^ (8 * rest.length - 8 * (rest.length - 1 - q') - 8) * 256
            = b * 2 ^ (8 * rest.length - 8 * (rest.length - 1 - q') - 8) * 256 by rfl,
          Nat.add_mul_mod_self_right, ih2]
      · simp only [List.set_cons_succ, List.length_cons, List.length_set, bufValBE, hKe]
        have hsplit8 : ∀ W : List Nat, W.length = rest.length →
            b * 2 ^ (8 * rest.length) + bufValBE W
              = bufValBE W + (b * 2 ^ (8 * rest.length - (8 * (rest.length - 1 - q') + 8)))
                * 2 ^ (8 * (rest.length - 1 - q') + 8) := by
          intro W hW
          rw [show b * 2 ^ (8 * rest.length - (8 * (rest.length - 1 - q') + 8))
              * 2 ^ (8 * (rest.length - 1 - q') + 8)
            = b * (2 ^ (8 * rest.length - (8 * (rest.length - 1 - q') + 8))
              * 2 ^ (8 * (rest.length - 1 - q') + 8)) by ring, ← pow_add,
            show 8 * rest.length - (8 * (rest.length - 1 - q') + 8)
              + (8 * (rest.length - 1 - q') + 8) = 8 * rest.length by omega]
          ring
        rw [hsplit8 _ (by simp), hsplit8 rest rfl,
          Nat.add_mul_div_right _ _ (by positivity),
          Nat.add_mul_div_right _ _ (by positivity), ih3]

/-! ### Characterization of the `getBits` loop -/

theorem lor_shiftLeft (a b i : Nat) : (a ||| b) <<< i = a <<< i ||| b <<< i := by
  apply Nat.eq_of_testBit_eq
  intro j
  simp [Nat.testBit_shiftLeft, Nat.testBit_lor, Bool.and_or_distrib_left]

theorem chunk_join (X r s i : Nat) (hrs : r ≤ s) :
    (X % 2 ^ r) <<< i ||| (X / 2 ^ r % 2 ^ (s - r)) <<< (i + r) = (X % 2 ^ s) <<< i := by
  have h1 : (X / 2 ^ r % 2 ^ (s - r)) <<< (i + r) = ((X / 2 ^ r % 2 ^ (s - r)) <<< r) <<< i := by
    rw [← Nat.shiftLeft_add]
    congr 1
    omega
  rw [h1, ← lor_shiftLeft]
  congr 1
  rw [Nat.shiftLeft_eq, lor_add_high _ _ _ (Nat.mod_lt _ (by positivity)),
    ← mod_pow_split X r (s - r), Nat.add_sub_cancel' hrs]

theorem getBitsLoop_le (view : List Nat) (hB : Bytes view) (bits : Nat) (hbits : bits ≤ 32) :
    ∀ fuel i offset value, bits - i ≤ fuel →
      toUint32 (getBitsLoop view false bits fuel offset i value)
        = toUint32 value ||| (bufValLE view / 2 ^ offset % 2 ^ (bits - i)) <<< i := by
  intro fuel
  induction fuel with
  | zero =>
    intro i offset value hfuel
    have : bits - i = 0 := by omega
    simp [getBitsLoop, this, Nat.mod_one, Nat.zero_shiftLeft]
  | succ fuel ih =>
    intro i offset value hfuel
    by_cases hcond : i < bits
    · have hread1 : 1 ≤ min (bits - i) (8 - offset % 8) := by
        have h8 : offset % 8 < 8 := Nat.mod_lt _ (by norm_num)
        omega
      simp only [getBitsLoop, if_pos hcond, Bool.false_eq_true, if_false]
      set bo := offset % 8 with hbo
      set read := min (bits - i) (8 - bo) with hread
      have hbo8 : bo < 8 := Nat.mod_lt _ (by norm_num)
      have hreadle : read ≤ 8 - bo := Nat.min_le_right _ _
      have hreadbi : read ≤ bits - i := Nat.min_le_left _ _
      rw [ih (i + read) (offset + read) _ (by omega)]
      have hbyte : view.getD (offset / 8) 0 < 256 := by
        rw [getD_eq_bufValLE view hB]
        exact Nat.mod_lt _ (by norm_num)
      have hchunk : toUint32 (jsAnd (jsShrS ((view.getD (offset / 8) 0 : Nat) : Int) (bo : Int))
          (jsNot (jsShl 255 (read : Int)))) = bufValLE view / 2 ^ offset % 2 ^ read := by
        rw [readBits_le_chunk _ bo read hbyte hbo8 hreadle,
          getD_eq_bufValLE view hB (offset / 8),
          show (256 : Nat) = 2 ^ 8 by norm_num,
          mod_div_mod _ 8 bo read (by omega), Nat.div_div_eq_div_mul, ← pow_add,
          show 8 * (offset / 8) + bo = offset from by omega]
      have hshl : toUint32 (jsShl (jsAnd (jsShrS ((view.getD (offset / 8) 0 : Nat) : Int)
          (bo : Int)) (jsNot (jsShl 255 (read : Int)))) (i : Int))
          = (bufValLE view / 2 ^ offset % 2 ^ read) <<< i := by
        rw [toUint32_jsShl_small _ i (by omega), hchunk, Nat.mod_eq_of_lt]
        rw [Nat.shiftLeft_eq, two_pow_32]
        calc bufValLE view / 2 ^ offset % 2 ^ read * 2 ^ i
            < 2 ^ read * 2 ^ i := by
              have hm := Nat.mod_lt (bufValLE view / 2 ^ offset) (show 0 < 2 ^ read by positivity)
              exact (Nat.mul_lt_mul_right (show 0 < 2 ^ i by positivity)).mpr hm
          _ = 2 ^ (read + i) := by rw [pow_add]
          _ ≤ 2 ^ 32 := Nat.pow_le_pow_right (by norm_num) (by omega)
      rw [toUint32_jsOr, hshl, Nat.lor_assoc]
      congr 1
      rw [show bufValLE view / 2 ^ (offset + read)
          = bufValLE view / 2 ^ offset / 2 ^ read by rw [Nat.div_div_eq_div_mul, ← pow_add],
        show bits - (i + read) = bits - i - read by omega]
      exact chunk_join (bufValLE view / 2 ^ offset) read (bits - i) i hreadbi
    · have : bits - i = 0 := by omega
      simp [getBitsLoop, hcond, this, Nat.mod_one, Nat.zero_shiftLeft]

theorem shl_mod32_eq (x k : Nat) (hk : k ≤ 32) :
    (x <<< k) % 4294967296 = x % 2 ^ (32 - k) * 2 ^ k := by
  rw [Nat.shiftLeft_eq, two_pow_32, show (2:Nat) ^ 32 = 2 ^ (32 - k) * 2 ^ k by
      rw [← pow_add]; congr 1; omega,
    Nat.mul_mod_mul_right]

theorem getBitsLoop_be (view : List Nat) (hB : Bytes view) (bits : Nat) (hbits : bits ≤ 32) :
    ∀ fuel i offset value, bits - i ≤ fuel →
      offset + (bits - i) ≤ 8 * view.length →
      toUint32 (getBitsLoop view true bits fuel offset i value)
        = (toUint32 value * 2 ^ (bits - i)
            + bufValBE view / 2 ^ (8 * view.length - offset - (bits - i)) % 2 ^ (bits - i))
          % 2 ^ 32 := by
  intro fuel
  induction fuel with
  | zero =>
    intro i offset value hfuel hoff
    have h0 : bits - i = 0 := by omega
    simp only [getBitsLoop, h0, pow_zero, Nat.mul_one, Nat.mod_one, Nat.add_zero]
    exact (Nat.mod_eq_of_lt (two_pow_32 ▸ toUint32_lt value)).symm
  | succ fuel ih =>
    intro i offset value hfuel hoff
    by_cases hcond : i < bits
    · have hbo8 : offset % 8 < 8 := Nat.mod_lt _ (by norm_num)
      simp only [getBitsLoop, if_pos hcond, if_true]
      set bo := offset % 8 with hbo
      set read := min (bits - i) (8 - bo) with hread
      have hread1 : 1 ≤ read := by
        rw [hread]
        omega
      have hreadle : read ≤ 8 - bo := Nat.min_le_right _ _
      have hreadbi : read ≤ bits - i := Nat.min_le_left _ _
      set rem' := bits - (i + read) with hrem'
      have hrem'e : bits - i = read + rem' := by omega
      set L := view.length with hL
      set E := 8 * L - offset - (bits - i) with hE
      set X := bufValBE view / 2 ^ E with hX
      rw [ih (i + read) (offset + read) _ (by omega) (by omega)]
      rw [show bits - (i + read) = rem' from rfl,
        show 8 * L - (offset + read) - rem' = E from by omega,
        show bufValBE view / 2 ^ E = X from rfl]
      have hq : offset / 8 < L := by
        have : offset < 8 * L := by omega
        omega
      have hbyte : view.getD (offset / 8) 0 < 256 := by
        rw [getD_eq_bufValBE view hB _ hq]
        exact Nat.mod_lt _ (by norm_num)
      have hchunk : toUint32 (jsAnd (jsShrS ((view.getD (offset / 8) 0 : Nat) : Int)
            ((8 - read - bo : Nat) : Int)) (jsNot (jsShl 255 (read : Int))))
          = X / 2 ^ rem' % 2 ^ read := by
        rw [readBits_be_chunk _ bo read hbyte hbo8 hreadle,
          getD_eq_bufValBE view hB _ hq,
          show (256 : Nat) = 2 ^ 8 by norm_num,
          mod_div_mod _ 8 (8 - read - bo) read (by omega),
          Nat.div_div_eq_div_mul, ← pow_add, hX, Nat.div_div_eq_div_mul, ← pow_add,
          show 8 * (L - 1 - offset / 8) + (8 - read - bo) = E + rem' from by omega]
      set C := X / 2 ^ rem' % 2 ^ read with hC
      have hClt : C < 2 ^ read := Nat.mod_lt _ (by positivity)
      have hacc : toUint32 (jsOr (jsShl value (read : Int))
          (jsAnd (jsShrS ((view.getD (offset / 8) 0 : Nat) : Int)
            ((8 - read - bo : Nat) : Int)) (jsNot (jsShl 255 (read : Int)))))
          = toUint32 value % 2 ^ (32 - read) * 2 ^ read + C := by
        rw [toUint32_jsOr, toUint32_jsShl_small _ read (by omega), hchunk,
          shl_mod32_eq _ read (by omega), Nat.lor_comm,
          lor_add_high C _ read hClt]
        ring
      rw [hacc]
      have hsplit : X % 2 ^ (bits - i) = X % 2 ^ rem' + C * 2 ^ rem' := by
        rw [hrem'e, Nat.add_comm read rem', mod_pow_split X rem' read]
      have hmodeq : ((toUint32 value % 2 ^ (32 - read) * 2 ^ read + C) * 2 ^ rem' + X % 2 ^ rem')
          % 2 ^ 32
          = ((toUint32 value * 2 ^ read + C) * 2 ^ rem' + X % 2 ^ rem') % 2 ^ 32 := by
        have h32 : (2:Nat) ^ 32 = 2 ^ (32 - read) * 2 ^ read := by
          rw [← pow_add]
          congr 1
          omega
        have hme : toUint32 value % 2 ^ (32 - read) * 2 ^ read
            ≡ toUint32 value * 2 ^ read [MOD 2 ^ 32] := by
          rw [h32]
          exact (Nat.mod_modEq _ _).mul_right' _
        exact ((hme.add_right C).mul_right (2 ^ rem')).add_right (X % 2 ^ rem')
      rw [hmodeq, hsplit]
      congr 1
      rw [Nat.add_mul, mul_assoc, ← pow_add, show read + rem' = bits - i by omega]
      ring
    · have h0 : bits - i = 0 := by omega
      simp only [getBitsLoop, if_neg hcond, h0, pow_zero, Nat.mul_one, Nat.mod_one,
        Nat.add_zero]
      exact (Nat.mod_eq_of_lt (two_pow_32 ▸ toUint32_lt value)).symm

/-! ### Characterization of the `setBits` loop -/

/-- Effect, on the whole-buffer value, of the read-modify-write of the
byte at bit base `BB` replacing the `wr` bits at in-byte position `S`
with the low bits of `V`: only the span `[BB+S, BB+S+wr)` changes. -/
theorem chunk_write_parts (B B1 V : Nat) (BB S wr : Nat) (hswr : S + wr ≤ 8) (hwr : 0 < wr)
    (h1 : B1 % 2 ^ BB = B % 2 ^ BB)
    (h2 : B1 / 2 ^ BB % 2 ^ 8 = B / 2 ^ BB % 2 ^ 8 % 2 ^ S + V % 2 ^ wr * 2 ^ S
        + B / 2 ^ BB % 2 ^ 8 / 2 ^ (S + wr) * 2 ^ (S + wr))
    (h3 : B1 / 2 ^ (BB + 8) = B / 2 ^ (BB + 8)) :
    B1 % 2 ^ (BB + S) = B % 2 ^ (BB + S) ∧
    B1 / 2 ^ (BB + S) % 2 ^ wr = V % 2 ^ wr ∧
    B1 / 2 ^ (BB + S + wr) = B / 2 ^ (BB + S + wr) := by
  have hLlt : B / 2 ^ BB % 2 ^ 8 % 2 ^ S < 2 ^ S := Nat.mod_lt _ (by positivity)
  have hMlt : V % 2 ^ wr < 2 ^ wr := Nat.mod_lt _ (by positivity)
  have hdvdS : (2:Nat) ^ S ∣ 2 ^ 8 := pow_dvd_pow 2 (by omega)
  refine ⟨?_, ?_, ?_⟩
  · rw [mod_pow_split B1 BB S, mod_pow_split B BB S, h1]
    have e1 : B1 / 2 ^ BB % 2 ^ S = B / 2 ^ BB % 2 ^ 8 % 2 ^ S := by
      rw [← Nat.mod_mod_of_dvd (B1 / 2 ^ BB) hdvdS, h2, decomp_low _ _ _ S wr hLlt]
    have e2 : B / 2 ^ BB % 2 ^ S = B / 2 ^ BB % 2 ^ 8 % 2 ^ S :=
      (Nat.mod_mod_of_dvd _ hdvdS).symm
    rw [e1, e2]
  · rw [pow_add, ← Nat.div_div_eq_div_mul,
      ← mod_div_mod (B1 / 2 ^ BB) 8 S wr hswr, h2, decomp_mid _ _ _ S wr hLlt hMlt]
  · have hexp : ∀ x : Nat, x / 2 ^ (BB + S + wr)
        = x / 2 ^ BB % 2 ^ 8 / 2 ^ (S + wr) + x / 2 ^ (BB + 8) * 2 ^ (8 - S - wr) := by
      intro x
      have hx : x / 2 ^ (BB + S + wr) = x / 2 ^ BB / 2 ^ (S + wr) := by
        rw [Nat.div_div_eq_div_mul, ← pow_add, Nat.add_assoc]
      have hdecomp : x / 2 ^ BB = x / 2 ^ BB % 2 ^ 8 + x / 2 ^ (BB + 8) * 2 ^ 8 := by
        rw [show x / 2 ^ (BB + 8) = x / 2 ^ BB / 2 ^ 8 by
            rw [Nat.div_div_eq_div_mul, ← pow_add]]
        exact (Nat.mod_add_div' (x / 2 ^ BB) (2 ^ 8)).symm
      calc x / 2 ^ (BB + S + wr) = x / 2 ^ BB / 2 ^ (S + wr) := hx
        _ = (x / 2 ^ BB % 2 ^ 8 + x / 2 ^ (BB + 8) * 2 ^ (8 - S - wr) * 2 ^ (S + wr))
              / 2 ^ (S + wr) := by
            congr 1
            rw [mul_assoc, ← pow_add, show 8 - S - wr + (S + wr) = 8 by omega]
            exact hdecomp
        _ = x / 2 ^ BB % 2 ^ 8 / 2 ^ (S + wr) + x / 2 ^ (BB + 8) * 2 ^ (8 - S - wr) :=
            Nat.add_mul_div_right _ _ (show 0 < 2 ^ (S + wr) by positivity)
    rw [hexp B1, hexp B, h2, h3, decomp_high _ _ _ S wr hLlt hMlt]

theorem div_mod_of_mod_eq {x y a b : Nat} (h : x % 2 ^ (a + b) = y % 2 ^ (a + b)) :
    x / 2 ^ a % 2 ^ b = y / 2 ^ a % 2 ^ b := by
  have hx : x / 2 ^ a % 2 ^ b = x % 2 ^ (a + b) / 2 ^ a := by
    rw [pow_add, Nat.mod_mul_right_div_self]
  have hy : y / 2 ^ a % 2 ^ b = y % 2 ^ (a + b) / 2 ^ a := by
    rw [pow_add, Nat.mod_mul_right_div_self]
  rw [hx, hy, h]

theorem mod_of_mod_eq {x y a b : Nat} (hab : a ≤ b) (h : x % 2 ^ b = y % 2 ^ b) :
    x % 2 ^ a = y % 2 ^ a := by
  rw [← Nat.mod_mod_of_dvd x (pow_dvd_pow 2 hab), ← Nat.mod_mod_of_dvd y (pow_dvd_pow 2 hab), h]

theorem setBitsLoop_le_parts (bits : Nat) (hbits : bits ≤ 32) (P : Nat) :
    ∀ fuel view, Bytes view → ∀ i offset value,
      bits - i ≤ fuel →
      offset + (bits - i) ≤ 8 * view.length →
      (∀ m, m ≤ 32 - i → toUint32 value % 2 ^ m = P / 2 ^ i % 2 ^ m) →
      (setBitsLoop false bits fuel view offset i value).length = view.length ∧
      Bytes (setBitsLoop false bits fuel view offset i value) ∧
      bufValLE (setBitsLoop false bits fuel view offset i value) % 2 ^ offset
        = bufValLE view % 2 ^ offset ∧
      bufValLE (setBitsLoop false bits fuel view offset i value) / 2 ^ offset % 2 ^ (bits - i)
        = P / 2 ^ i % 2 ^ (bits - i) ∧
      bufValLE (setBitsLoop false bits fuel view offset i value) / 2 ^ (offset + (bits - i))
        = bufValLE view / 2 ^ (offset + (bits - i)) := by
  intro fuel
  induction fuel with
  | zero =>
    intro view hB i offset value hfuel hoff hval
    have h0 : bits - i = 0 := by omega
    simp [setBitsLoop, h0, Nat.mod_one, hB]
  | succ fuel ih =>
    intro view hB i offset value hfuel hoff hval
    by_cases hcond : i < bits
    · simp only [setBitsLoop, if_pos hcond, Bool.false_eq_true, if_false]
      set bo := offset % 8 with hbo
      set q := offset / 8 with hq8
      set wrote := min (bits - i) (8 - bo) with hwrote
      have hbo8 : bo < 8 := Nat.mod_lt _ (by norm_num)
      have hw1 : 1 ≤ wrote := by rw [hwrote]; omega
      have hwle : wrote ≤ 8 - bo := Nat.min_le_right _ _
      have hwbi : wrote ≤ bits - i := Nat.min_le_left _ _
      have hqlt : q < view.length := by
        rw [hq8]
        omega
      have hbyte : view.getD q 0 < 256 := by
        rw [getD_eq_bufValLE view hB]
        exact Nat.mod_lt _ (by norm_num)
      have hupd := byte_update (view.getD q 0) bo wrote (toUint32 value)
        (jsAnd value (jsNot (jsShl 255 (wrote : Int)))) (jsNot (jsShl 255 (wrote : Int)))
        hbyte hw1 (by omega)
        (fun t ht => writeBits_le_testBit value wrote (by omega) t (by omega))
        (fun t ht => mask255_low_testBit wrote (by omega) t (by omega))
      set c := toUint8 (jsOr (jsAnd ((view.getD q 0 : Nat) : Int)
        (jsNot (jsShl (jsNot (jsShl 255 (wrote : Int))) (bo : Int))))
        (jsShl (jsAnd value (jsNot (jsShl 255 (wrote : Int)))) (bo : Int))) with hc
      have hclt : c < 256 := Nat.mod_lt _ (by norm_num)
      obtain ⟨sp1, sp2, sp3⟩ := bufValLE_set_parts view hB q c hqlt hclt
      have hB1 : Bytes (view.set q c) := Bytes_set view hB q c hclt
      have hlen1 : (view.set q c).length = view.length := List.length_set ..
      have hval' : ∀ m, m ≤ 32 - (i + wrote) →
          toUint32 (jsShrS value (wrote : Int)) % 2 ^ m = P / 2 ^ (i + wrote) % 2 ^ m := by
        intro m hm
        rw [toUint32_jsShrS_mod value wrote m (by omega) (by omega)]
        have hv := hval (wrote + m) (by omega)
        calc toUint32 value / 2 ^ wrote % 2 ^ m
            = toUint32 value % (2 ^ wrote * 2 ^ m) / 2 ^ wrote :=
              (Nat.mod_mul_right_div_self _ _ _).symm
          _ = toUint32 value % 2 ^ (wrote + m) / 2 ^ wrote := by rw [pow_add]
          _ = P / 2 ^ i % 2 ^ (wrote + m) / 2 ^ wrote := by rw [hv]
          _ = P / 2 ^ i % (2 ^ wrote * 2 ^ m) / 2 ^ wrote := by rw [pow_add]
          _ = P / 2 ^ i / 2 ^ wrote % 2 ^ m := Nat.mod_mul_right_div_self _ _ _
          _ = P / 2 ^ (i + wrote) % 2 ^ m := by rw [Nat.div_div_eq_div_mul, ← pow_add]
      obtain ⟨ihLen, ihBytes, ihA, ihB2, ihC⟩ := ih (view.set q c) hB1 (i + wrote)
        (offset + wrote) (jsShrS value (wrote : Int)) (by omega)
        (by rw [hlen1]; omega) hval'
      have hcw := chunk_write_parts (bufValLE view) (bufValLE (view.set q c))
        (toUint32 value) (8 * q) bo wrote (by omega) (by omega)
        (by
          rw [show 8 * q = 8 * q by rfl]
          exact sp1)
        (by
          have sp2h : bufValLE (view.set q c) / 2 ^ (8 * q) % 2 ^ 8 = c := by
            rw [show (2:Nat) ^ 8 = 256 by norm_num]
            exact sp2
          have hbeq : view.getD q 0 = bufValLE view / 2 ^ (8 * q) % 2 ^ 8 := by
            rw [getD_eq_bufValLE view hB q, show (256:Nat) = 2 ^ 8 by norm_num]
          rw [hbeq] at hupd
          exact sp2h.trans hupd)
        (by
          rw [show 8 * q + 8 = 8 * q + 8 by rfl]
          exact sp3)
      have hoq : 8 * q + bo = offset := by
        rw [hq8, hbo]
        omega
      rw [hoq] at hcw
      obtain ⟨cw1, cw2, cw3⟩ := hcw
      set rem' := bits - (i + wrote) with hrem'
      have hreme : bits - i = wrote + rem' := by omega
      refine ⟨by rw [ihLen, hlen1], ihBytes, ?_, ?_, ?_⟩
      · exact (mod_of_mod_eq (show offset ≤ offset + wrote by omega) ihA).trans cw1
      · rw [hreme, mod_pow_split _ wrote rem', mod_pow_split _ wrote rem']
        have hlow : bufValLE (setBitsLoop false bits fuel (view.set q c) (offset + wrote)
            (i + wrote) (jsShrS value (wrote : Int))) / 2 ^ offset % 2 ^ wrote
            = P / 2 ^ i % 2 ^ wrote :=
          ((div_mod_of_mod_eq ihA).trans cw2).trans (hval wrote (by omega))
        have hhigh : bufValLE (setBitsLoop false bits fuel (view.set q c) (offset + wrote)
            (i + wrote) (jsShrS value (wrote : Int))) / 2 ^ offset / 2 ^ wrote % 2 ^ rem'
            = P / 2 ^ i / 2 ^ wrote % 2 ^ rem' := by
          rw [Nat.div_div_eq_div_mul, ← pow_add, Nat.div_div_eq_div_mul, ← pow_add]
          exact ihB2
        rw [hlow, hhigh]
      · rw [show offset + (bits - i) = offset + wrote + rem' by omega, ihC]
        have h3' : bufValLE (view.set q c) / 2 ^ (offset + wrote) / 2 ^ rem'
            = bufValLE view / 2 ^ (offset + wrote) / 2 ^ rem' := by rw [cw3]
        rw [Nat.div_div_eq_div_mul, ← pow_add, Nat.div_div_eq_div_mul, ← pow_add] at h3'
        exact h3'
    · have h0 : bits - i = 0 := by omega
      simp [setBitsLoop, hcond, h0, Nat.mod_one, hB]

theorem setBitsLoop_be_parts (bits : Nat) (hbits : bits ≤ 32) (P : Nat) :
    ∀ fuel view, Bytes view → ∀ i offset value,
      bits - i ≤ fuel →
      offset + (bits - i) ≤ 8 * view.length →
      toUint32 value = P →
      (setBitsLoop true bits fuel view offset i value).length = view.length ∧
      Bytes (setBitsLoop true bits fuel view offset i value) ∧
      bufValBE (setBitsLoop true bits fuel view offset i value)
          % 2 ^ (8 * view.length - offset - (bits - i))
        = bufValBE view % 2 ^ (8 * view.length - offset - (bits - i)) ∧
      bufValBE (setBitsLoop true bits fuel view offset i value)
          / 2 ^ (8 * view.length - offset - (bits - i)) % 2 ^ (bits - i)
        = P % 2 ^ (bits - i) ∧
      bufValBE (setBitsLoop true bits fuel view offset i value) / 2 ^ (8 * view.length - offset)
        = bufValBE view / 2 ^ (8 * view.length - offset) := by
  intro fuel
  induction fuel with
  | zero =>
    intro view hB i offset value hfuel hoff hval
    have h0 : bits - i = 0 := by omega
    simp [setBitsLoop, h0, Nat.mod_one, hB]
  | succ fuel ih =>
    intro view hB i offset value hfuel hoff hval
    by_cases hcond : i < bits
    · simp only [setBitsLoop, if_pos hcond, if_true]
      set bo := offset % 8 with hbo
      set q := offset / 8 with hq8
      set wrote := min (bits - i) (8 - bo) with hwrote
      have hbo8 : bo < 8 := Nat.mod_lt _ (by norm_num)
      have hw1 : 1 ≤ wrote := by rw [hwrote]; omega
      have hwle : wrote ≤ 8 - bo := Nat.min_le_right _ _
      have hwbi : wrote ≤ bits - i := Nat.min_le_left _ _
      have hqlt : q < view.length := by
        rw [hq8]
        omega
      set L := view.length with hL
      have hbyte : view.getD q 0 < 256 := by
        rw [getD_eq_bufValBE view hB q hqlt]
        exact Nat.mod_lt _ (by norm_num)
      set sh := 8 - bo - wrote with hsh
      have hshInt : (8 : Int) - (bo : Int) - (wrote : Int) = ((sh : Nat) : Int) := by
        rw [hsh]
        push_cast
        omega
      have hshiftInt : (bits : Int) - (i : Int) - (wrote : Int)
          = (((bits - i - wrote : Nat)) : Int) := by
        push_cast
        omega
      rw [hshInt, hshiftInt]
      set W := jsAnd (jsShrS value (((bits - i - wrote : Nat)) : Int))
        (jsNot (jsShl (jsNot 0) (wrote : Int))) with hW
      have hupd := byte_update (view.getD q 0) sh wrote
        (toUint32 (jsShrS value (((bits - i - wrote : Nat)) : Int)))
        W (jsNot (jsShl (jsNot 0) (wrote : Int)))
        hbyte hw1 (by omega)
        (fun t ht => writeBits_be_testBit _ wrote (by omega) t)
        (fun t ht => maskBE_testBit wrote (by omega) t)
      set c := toUint8 (jsOr (jsAnd ((view.getD q 0 : Nat) : Int)
        (jsNot (jsShl (jsNot (jsShl (jsNot 0) (wrote : Int))) (sh : Int))))
        (jsShl W (sh : Int))) with hc
      have hclt : c < 256 := Nat.mod_lt _ (by norm_num)
      obtain ⟨sp1, sp2, sp3⟩ := bufValBE_set_parts view hB q c hqlt hclt
      have hB1 : Bytes (view.set q c) := Bytes_set view hB q c hclt
      have hlen1 : (view.set q c).length = view.length := List.length_set ..
      set K := 8 * (L - 1 - q) with hK
      have hcw := chunk_write_parts (bufValBE view) (bufValBE (view.set q c))
        (toUint32 (jsShrS value (((bits - i - wrote : Nat)) : Int)))
        K sh wrote (by omega) (by omega)
        (by rw [hK, hL]; exact sp1)
        (by
          have sp2h : bufValBE (view.set q c) / 2 ^ K % 2 ^ 8 = c := by
            rw [show (2:Nat) ^ 8 = 256 by norm_num, hK, hL]
            exact sp2
          have hbeq : view.getD q 0 = bufValBE view / 2 ^ K % 2 ^ 8 := by
            rw [getD_eq_bufValBE view hB q hqlt, show (256:Nat) = 2 ^ 8 by norm_num, hK, hL]
          rw [hbeq] at hupd
          exact sp2h.trans hupd)
        (by rw [hK, hL]; exact sp3)
      set rem' := bits - (i + wrote) with hrem'
      have hreme : bits - i = rem' + wrote := by omega
      set E := 8 * L - offset - (bits - i) with hE
      have hKsh : K + sh = E + rem' := by
        rw [hK, hsh, hE, hq8, hbo]
        omega
      rw [hKsh] at hcw
      obtain ⟨cw1, cw2, cw3⟩ := hcw
      obtain ⟨ihLen, ihBytes, ihA, ihB2, ihC⟩ := ih (view.set q c) hB1 (i + wrote)
        (offset + wrote) value (by omega) (by rw [hlen1]; omega) hval
      rw [hlen1] at ihLen ihA ihB2 ihC
      rw [show 8 * view.length - (offset + wrote) - (bits - (i + wrote)) = E from by
        rw [hE, hL]; omega] at ihA ihB2
      rw [show 8 * view.length - (offset + wrote) = E + rem' from by
        rw [hE, hrem', hL]; omega] at ihC
      rw [show bits - (i + wrote) = rem' from rfl] at ihB2
      have hVmod : toUint32 (jsShrS value (((bits - i - wrote : Nat)) : Int)) % 2 ^ wrote
          = P / 2 ^ rem' % 2 ^ wrote := by
        rw [toUint32_jsShrS_mod value (bits - i - wrote) wrote (by omega) (by omega), hval,
          Nat.sub_sub]
      refine ⟨ihLen, ihBytes, ?_, ?_, ?_⟩
      · exact ihA.trans (mod_of_mod_eq (show E ≤ E + rem' by omega) cw1)
      · rw [hreme, mod_pow_split _ rem' wrote, mod_pow_split _ rem' wrote]
        have hlow : bufValBE (setBitsLoop true bits fuel (view.set q c) (offset + wrote)
            (i + wrote) value) / 2 ^ E % 2 ^ rem' = P % 2 ^ rem' := ihB2
        have hhigh : bufValBE (setBitsLoop true bits fuel (view.set q c) (offset + wrote)
            (i + wrote) value) / 2 ^ E / 2 ^ rem' % 2 ^ wrote
            = P / 2 ^ rem' % 2 ^ wrote := by
          rw [Nat.div_div_eq_div_mul, ← pow_add, ihC, cw2]
          exact hVmod
        rw [hlow, hhigh]
      · have hrem8 : 8 * L - offset = E + rem' + wrote := by
          rw [hE]
          omega
        have e1 : ∀ x : Nat, x / 2 ^ (E + rem' + wrote) = x / 2 ^ (E + rem') / 2 ^ wrote := by
          intro x
          rw [Nat.div_div_eq_div_mul, ← pow_add]
        rw [hrem8, e1, e1, ihC]
        rw [e1, e1] at cw3
        exact cw3
    · have h0 : bits - i = 0 := by omega
      simp [setBitsLoop, hcond, h0, Nat.mod_one, hB]

/-! ### Top-level `getBits` and `setBits` specifications -/

theorem ofPat_of_lt {p : Nat} (hp : p < 2147483648) : ofPat p = (p : Int) := by
  rw [ofPat, if_pos hp]

theorem ofPat_of_ge {p : Nat} (hp : 2147483648 ≤ p) : ofPat p = (p : Int) - 4294967296 := by
  rw [ofPat, if_neg (by omega)]

theorem ofPat_emod (p : Nat) : ofPat p % 4294967296 = (p : Int) % 4294967296 := by
  rw [ofPat]
  split <;> omega

theorem ofPat_eq_zero_iff {p : Nat} (hp : p < 4294967296) : ofPat p = 0 ↔ p = 0 := by
  rw [ofPat]
  split <;> omega

theorem jsOr_norm (a b : Int) : jsOr a b = ofPat (toUint32 (jsOr a b)) := by
  rw [toUint32_jsOr]
  rfl

theorem getBitsLoop_norm (view : List Nat) (be : Bool) (bits : Nat) :
    ∀ fuel offset i value, value = ofPat (toUint32 value) →
      getBitsLoop view be bits fuel offset i value
        = ofPat (toUint32 (getBitsLoop view be bits fuel offset i value)) := by
  intro fuel
  induction fuel with
  | zero => intro offset i value hv; simpa [getBitsLoop] using hv
  | succ fuel ih =>
    intro offset i value hv
    by_cases hcond : i < bits
    · cases be <;>
        simp only [getBitsLoop, if_pos hcond, Bool.false_eq_true, if_false, if_true] <;>
        exact ih _ _ _ (jsOr_norm _ _)
    · simpa [getBitsLoop, hcond] using hv

theorem xor_allones_low (bits : Nat) (hbits : bits ≤ 32) :
    4294967295 ^^^ (2 ^ bits - 1) = (2 ^ (32 - bits) - 1) * 2 ^ bits := by
  apply Nat.eq_of_testBit_eq
  intro j
  rw [Nat.testBit_xor, testBit_allones32, Nat.testBit_two_pow_sub_one, testBit_mul_two_pow,
    Nat.testBit_two_pow_sub_one]
  by_cases hj32 : j < 32 <;> by_cases hjb : j < bits <;>
    simp [hj32, hjb, show bits ≤ j ↔ ¬ j < bits by omega] <;> omega

/-- The sign-handling tail of `getBits`, given that the assembled pattern
is the low `bits` of the two's complement pattern of a representable `v`. -/
theorem getBits_signed_result (view : List Nat) (be : Bool) (offset bits : Nat)
    (hbits1 : 1 ≤ bits) (hbits : bits ≤ 32)
    (hbound : offset + bits ≤ 8 * view.length) (v : Int)
    (hv : Representable true bits v)
    (hu : toUint32 (getBitsLoop view be bits bits offset 0 0) = toUint32 v % 2 ^ bits) :
    getBits view be offset bits true = .ok v := by
  rw [Representable, if_pos rfl] at hv
  obtain ⟨hv1, hv2⟩ := hv
  have hv1i : -(2:Int) ^ (bits - 1) ≤ v := by exact_mod_cast hv1
  have hv2i : v < (2:Int) ^ (bits - 1) := by exact_mod_cast hv2
  have hnorm := getBitsLoop_norm view be bits bits offset 0 0 (by decide)
  set value := getBitsLoop view be bits bits offset 0 0 with hvalue
  obtain ⟨u, huu⟩ : ∃ u, toUint32 value = u := ⟨_, rfl⟩
  rw [huu] at hu hnorm
  have hult : u < 2 ^ bits := by
    have := Nat.mod_lt (toUint32 v) (show 0 < 2 ^ bits by positivity)
    omega
  have hu32 : u < 4294967296 := huu ▸ toUint32_lt value
  have hB1 : (1:Nat) ≤ 2 ^ (bits - 1) := Nat.one_le_two_pow
  have hAB : (2:Nat) ^ bits = 2 * 2 ^ (bits - 1) := by
    rw [← pow_succ']
    congr 1
    omega
  have hABi : (2:Int) ^ bits = 2 * 2 ^ (bits - 1) := by exact_mod_cast hAB
  have hBle : (2:Nat) ^ (bits - 1) ≤ 2 ^ 31 := Nat.pow_le_pow_right (by norm_num) (by omega)
  have hBlei : (2:Int) ^ (bits - 1) ≤ 2 ^ 31 := by exact_mod_cast hBle
  have hmsbpat : toUint32 (jsShl 1 ((bits : Int) - 1)) = 2 ^ (bits - 1) := by
    rw [show (bits : Int) - 1 = ((bits - 1 : Nat) : Int) by push_cast; omega,
      toUint32_jsShl, shift_count_small (bits - 1) (by omega),
      show toUint32 (1 : Int) = 1 from by decide, Nat.shiftLeft_eq, Nat.one_mul,
      Nat.mod_eq_of_lt]
    calc (2:Nat) ^ (bits - 1) ≤ 2 ^ 31 := hBle
      _ < 4294967296 := by norm_num
  have hmsb : jsAnd value (jsShl 1 ((bits : Int) - 1)) ≠ 0 ↔ u.testBit (bits - 1) := by
    rw [jsAnd, hmsbpat, huu, Nat.and_two_pow]
    rw [Ne, ofPat_eq_zero_iff (by
      cases h : u.testBit (bits - 1) <;> simp [h] <;>
        calc (2:Nat) ^ (bits - 1) ≤ 2 ^ 31 := hBle
          _ < 4294967296 := by norm_num)]
    cases h : u.testBit (bits - 1) <;> simp [h] <;> omega
  unfold getBits
  rw [if_neg (by push_cast; omega)]
  rw [← hvalue, if_pos (Eq.refl true)]
  by_cases hneg : v < 0
  · -- negative: the pattern is v + 2^bits and the MSB is set
    have ht32 : (toUint32 v : Int) = v + 4294967296 := by
      rw [toUint32_nonneg_eq]
      omega
    have hD : (4294967296:Int) = 2 ^ bits * 2 ^ (32 - bits) := by
      rw [← pow_add, show bits + (32 - bits) = 32 by omega]
      norm_num
    have hmod : (toUint32 v : Int) % 2 ^ bits = v + 2 ^ bits := by
      rw [ht32, hD]
      have hx : v + 2 ^ bits * ((2:Int) ^ (32 - bits)) =
          (v + 2 ^ bits) + 2 ^ bits * ((2:Int) ^ (32 - bits) - 1) := by ring
      rw [hx, Int.add_mul_emod_self_left,
        Int.emod_eq_of_lt (by omega) (by omega)]
    have huval : (u : Int) = v + 2 ^ bits := by
      have hu' : (u : Int) = ((toUint32 v : Nat) : Int) % (2:Int) ^ bits := by
        rw [hu]
        push_cast
        rfl
      rw [hu', hmod]
    have humsb : u.testBit (bits - 1) := by
      rw [Nat.testBit_to_div_mod]
      have hlo : 2 ^ (bits - 1) ≤ u := by
        have h1 : (2:Int) ^ (bits - 1) ≤ (u : Int) := by omega
        have h2 : ((2 ^ (bits - 1) : Nat) : Int) ≤ (u : Int) := by push_cast; omega
        exact_mod_cast h2
      have hdiv : u / 2 ^ (bits - 1) = 1 := by
        apply Nat.div_eq_of_lt_le <;> omega
      simp [hdiv]
    by_cases h32 : bits = 32
    · rw [if_neg (fun h => h.1 h32)]
      subst h32
      rw [show (2:Int) ^ (32 - 1) = 2147483648 from by norm_num] at hv1i
      rw [show (2:Int) ^ 32 = 4294967296 from by norm_num] at huval
      have hgeN : 2147483648 ≤ u := by omega
      rw [hnorm, ofPat_of_ge hgeN]
      exact congrArg Except.ok (by omega)
    · rw [if_pos ⟨h32, hmsb.mpr humsb⟩]
      have hshlbits : toUint32 (jsShl 1 (bits : Int)) = 2 ^ bits := by
        rw [toUint32_jsShl, shift_count_small bits (by omega),
          show toUint32 (1 : Int) = 1 from by decide, Nat.shiftLeft_eq, Nat.one_mul,
          Nat.mod_eq_of_lt (by
            calc (2:Nat) ^ bits ≤ 2 ^ 31 := Nat.pow_le_pow_right (by norm_num) (by omega)
              _ < 4294967296 := by norm_num)]
      have hsub : toUint32 (jsShl 1 (bits : Int) - 1) = 2 ^ bits - 1 := by
        have he : jsShl 1 (bits : Int) % 4294967296 = ((2 ^ bits : Nat) : Int) % 4294967296 := by
          rw [jsShl, ofPat_emod]
          congr 1
          rw [← hshlbits, toUint32_jsShl]
        rw [toUint32]
        have hee : (jsShl 1 (bits : Int) - 1) % 4294967296
            = (((2 ^ bits : Nat) : Int) - 1) % 4294967296 := by omega
        rw [hee]
        have hpb : (1:Nat) ≤ 2 ^ bits := Nat.one_le_two_pow
        have hpb2 : (2:Nat) ^ bits < 4294967296 := by
          calc (2:Nat) ^ bits ≤ 2 ^ 31 := Nat.pow_le_pow_right (by norm_num) (by omega)
            _ < 4294967296 := by norm_num
        omega
      have hext : toUint32 (jsXor (-1) (jsShl 1 (bits : Int) - 1))
          = (2 ^ (32 - bits) - 1) * 2 ^ bits := by
        rw [toUint32_jsXor, hsub, show toUint32 (-1) = 4294967295 from by decide,
          xor_allones_low bits hbits]
      have hlor : toUint32 (jsOr value (jsXor (-1) (jsShl 1 (bits : Int) - 1)))
          = u + (2 ^ (32 - bits) - 1) * 2 ^ bits := by
        rw [toUint32_jsOr, huu, hext, lor_add_high _ _ _ hult]
      have hbig : (2:Nat) ^ bits * 2 ^ (32 - bits) = 4294967296 := by
        rw [← pow_add, show bits + (32 - bits) = 32 by omega, two_pow_32]
      have hb1 : (1:Nat) ≤ 2 ^ (32 - bits) := Nat.one_le_two_pow
      have h31 : (2:Nat) ^ bits ≤ 2 ^ 31 := Nat.pow_le_pow_right (by norm_num) (by omega)
      have hexp : ((2 ^ (32 - bits) - 1) * 2 ^ bits : Nat) = 4294967296 - 2 ^ bits := by
        rw [Nat.sub_one_mul, Nat.mul_comm (2 ^ (32 - bits)) (2 ^ bits), hbig]
      have hge : 2147483648 ≤ u + (2 ^ (32 - bits) - 1) * 2 ^ bits := by
        rw [hexp]
        omega
      rw [jsOr_norm, hlor, ofPat_of_ge hge]
      congr 1
      rw [hexp]
      have hlo : 2 ^ (bits - 1) ≤ u := by
        have h2 : ((2 ^ (bits - 1) : Nat) : Int) ≤ (u : Int) := by push_cast; omega
        exact_mod_cast h2
      have hcast : ((u + (4294967296 - 2 ^ bits) : Nat) : Int)
          = (u : Int) + 4294967296 - ((2 ^ bits : Nat) : Int) := by
        have hle : (2:Nat) ^ bits ≤ 4294967296 := by omega
        push_cast [Nat.cast_sub hle]
        ring
      rw [hcast]
      push_cast at huval ⊢
      omega
  · -- nonnegative: the pattern is v itself and the MSB is clear
    have huval : (u : Int) = v := by
      have ht : toUint32 v = v.toNat := by
        rw [toUint32]
        omega
      have hvlt : v.toNat < 2 ^ bits := by
        have h1 : v.toNat < 2 ^ (bits - 1) := by omega
        calc v.toNat < 2 ^ (bits - 1) := h1
          _ ≤ 2 ^ bits := Nat.pow_le_pow_right (by norm_num) (by omega)
      rw [hu, ht, Nat.mod_eq_of_lt hvlt]
      omega
    have humsb : u.testBit (bits - 1) = false := by
      apply Nat.testBit_lt_two_pow
      have h2 : (u : Int) < ((2 ^ (bits - 1) : Nat) : Int) := by push_cast; omega
      exact_mod_cast h2
    rw [if_neg (by
      rintro ⟨h1, h2⟩
      rw [hmsb] at h2
      simp [humsb] at h2)]
    rw [hnorm, ofPat_of_lt (by
      have h2 : (u : Int) < 2147483648 := by omega
      exact_mod_cast h2)]
    exact congrArg Except.ok huval

/-- Unsigned `getBits` in little-endian mode returns the `bits`-wide span
of the buffer starting at bit `offset` (LSB-first addressing). -/
theorem getBits_le_unsigned (view : List Nat) (hB : Bytes view) (offset bits : Nat)
    (hbits : bits ≤ 32) (hbound : offset + bits ≤ 8 * view.length) :
    getBits view false offset bits false
      = .ok ((bufValLE view / 2 ^ offset % 2 ^ bits : Nat) : Int) := by
  unfold getBits
  rw [if_neg (by push_cast; omega)]
  rw [if_neg (by simp)]
  rw [jsShrU_zero]
  congr 1
  have h := getBitsLoop_le view hB bits hbits bits 0 offset 0 (by omega)
  rw [show toUint32 (0:Int) = 0 from by decide] at h
  have h2 : toUint32 (getBitsLoop view false bits bits offset 0 0)
      = bufValLE view / 2 ^ offset % 2 ^ bits := by simpa using h
  exact_mod_cast h2

/-- Unsigned `getBits` in big-endian mode returns the `bits`-wide span
ending `offset` bits below the top of the buffer (MSB-first addressing). -/
theorem getBits_be_unsigned (view : List Nat) (hB : Bytes view) (offset bits : Nat)
    (hbits : bits ≤ 32) (hbound : offset + bits ≤ 8 * view.length) :
    getBits view true offset bits false
      = .ok ((bufValBE view / 2 ^ (8 * view.length - offset - bits) % 2 ^ bits : Nat) : Int) := by
  unfold getBits
  rw [if_neg (by push_cast; omega)]
  rw [if_neg (by simp)]
  rw [jsShrU_zero]
  congr 1
  have h := getBitsLoop_be view hB bits hbits bits 0 offset 0 (by omega) (by omega)
  have hlt : bufValBE view / 2 ^ (8 * view.length - offset - bits) % 2 ^ bits < 2 ^ 32 :=
    lt_of_lt_of_le (Nat.mod_lt _ (by positivity)) (Nat.pow_le_pow_right (by norm_num) hbits)
  rw [show toUint32 (0:Int) = 0 from by decide, Nat.zero_mul, Nat.zero_add, Nat.sub_zero,
    Nat.mod_eq_of_lt hlt] at h
  exact_mod_cast h

/-- `setBits` succeeds within bounds in little-endian mode, leaving every
bit outside `[offset, offset + bits)` unchanged and placing the low
`bits` of the value's 32-bit pattern at `offset` (LSB-first). -/
theorem setBits_le_spec (view : List Nat) (hB : Bytes view) (offset : Nat) (value : Int)
    (bits : Nat) (hbits : bits ≤ 32) (hbound : offset + bits ≤ 8 * view.length) :
    setBits view false offset value bits
        = .ok (setBitsLoop false bits bits view offset 0 value) ∧
    (setBitsLoop false bits bits view offset 0 value).length = view.length ∧
    Bytes (setBitsLoop false bits bits view offset 0 value) ∧
    bufValLE (setBitsLoop false bits bits view offset 0 value) % 2 ^ offset
      = bufValLE view % 2 ^ offset ∧
    bufValLE (setBitsLoop false bits bits view offset 0 value) / 2 ^ offset % 2 ^ bits
      = toUint32 value % 2 ^ bits ∧
    bufValLE (setBitsLoop false bits bits view offset 0 value) / 2 ^ (offset + bits)
      = bufValLE view / 2 ^ (offset + bits) := by
  have h := setBitsLoop_le_parts bits hbits (toUint32 value) bits view hB 0 offset value
    (by omega) (by omega) (by
      intro m hm
      simp)
  obtain ⟨h1, h2, h3, h4, h5⟩ := h
  refine ⟨?_, h1, h2, h3, by simpa using h4, by simpa using h5⟩
  unfold setBits
  rw [if_neg (by push_cast; omega)]

/-- `setBits` succeeds within bounds in big-endian mode, leaving every
bit outside the mirrored span unchanged and placing the low `bits` of the
value's 32-bit pattern there (MSB-first). -/
theorem setBits_be_spec (view : List Nat) (hB : Bytes view) (offset : Nat) (value : Int)
    (bits : Nat) (hbits : bits ≤ 32) (hbound : offset + bits ≤ 8 * view.length) :
    setBits view true offset value bits
        = .ok (setBitsLoop true bits bits view offset 0 value) ∧
    (setBitsLoop true bits bits view offset 0 value).length = view.length ∧
    Bytes (setBitsLoop true bits bits view offset 0 value) ∧
    bufValBE (setBitsLoop true bits bits view offset 0 value)
        % 2 ^ (8 * view.length - offset - bits)
      = bufValBE view % 2 ^ (8 * view.length - offset - bits) ∧
    bufValBE (setBitsLoop true bits bits view offset 0 value)
        / 2 ^ (8 * view.length - offset - bits) % 2 ^ bits
      = toUint32 value % 2 ^ bits ∧
    bufValBE (setBitsLoop true bits bits view offset 0 value) / 2 ^ (8 * view.length - offset)
      = bufValBE view / 2 ^ (8 * view.length - offset) := by
  have h := setBitsLoop_be_parts bits hbits (toUint32 value) bits view hB 0 offset value
    (by omega) (by omega) rfl
  obtain ⟨h1, h2, h3, h4, h5⟩ := h
  refine ⟨?_, h1, h2, by simpa using h3, by simpa using h4, h5⟩
  unfold setBits
  rw [if_neg (by push_cast; omega)]

/-- C2-supporting fact: the bounds guard of `getBits` and `setBits` fires
exactly when the requested span exceeds the view's bit length. -/
theorem getBits_error_iff (view : List Nat) (bigEndian : Bool) (offset bits : Nat)
    (signed : Bool) :
    (∃ e, getBits view bigEndian offset bits signed = .error e)
      ↔ 8 * view.length < offset + bits := by
  unfold getBits
  by_cases h : 8 * view.length < offset + bits
  · rw [if_pos (by push_cast; omega)]
    simp [h]
  · rw [if_neg (by push_cast; omega)]
    constructor
    · rintro ⟨e, he⟩
      exfalso
      dsimp only at he
      split at he
      · split at he <;> exact Except.noConfusion he
      · exact Except.noConfusion he
    · intro hc
      exact absurd hc h

theorem setBits_error_iff (view : List Nat) (bigEndian : Bool) (offset : Nat) (value : Int)
    (bits : Nat) :
    setBits view bigEndian offset value bits = .error .outOfRange
      ↔ 8 * view.length < offset + bits := by
  unfold setBits
  by_cases h : 8 * view.length < offset + bits
  · rw [if_pos (by push_cast; omega)]
    simp [h]
  · rw [if_neg (by push_cast; omega)]
    simp [h]

theorem toUint32_mod_of_representable_unsigned {w : Nat} {v : Int} (hw : w ≤ 32)
    (hv0 : 0 ≤ v) (hv2 : v < ((2 ^ w : Nat) : Int)) :
    toUint32 v % 2 ^ w = v.toNat := by
  have hpow : (2:Nat) ^ w ≤ 4294967296 := by
    calc (2:Nat) ^ w ≤ 2 ^ 32 := Nat.pow_le_pow_right (by norm_num) hw
      _ = 4294967296 := by norm_num
  have hvn : v.toNat < 2 ^ w := by
    have h2 : ((v.toNat : Nat) : Int) < ((2 ^ w : Nat) : Int) := by
      rw [Int.toNat_of_nonneg hv0]
      exact hv2
    exact_mod_cast h2
  have ht : toUint32 v = v.toNat := by
    unfold toUint32
    omega
  rw [ht, Nat.mod_eq_of_lt hvn]

theorem getBitsLoop_le_top (view : List Nat) (hB : Bytes view) (w offset : Nat)
    (hw : w ≤ 32) :
    toUint32 (getBitsLoop view false w w offset 0 0)
      = bufValLE view / 2 ^ offset % 2 ^ w := by
  have h := getBitsLoop_le view hB w hw w 0 offset 0 (by omega)
  rw [show toUint32 (0:Int) = 0 from by decide] at h
  simpa using h

theorem getBitsLoop_be_top (view : List Nat) (hB : Bytes view) (w offset : Nat)
    (hw : w ≤ 32) (hbound : offset + w ≤ 8 * view.length) :
    toUint32 (getBitsLoop view true w w offset 0 0)
      = bufValBE view / 2 ^ (8 * view.length - offset - w) % 2 ^ w := by
  have h := getBitsLoop_be view hB w hw w 0 offset 0 (by omega) (by omega)
  have hlt : bufValBE view / 2 ^ (8 * view.length - offset - w) % 2 ^ w < 2 ^ 32 :=
    lt_of_lt_of_le (Nat.mod_lt _ (by positivity)) (Nat.pow_le_pow_right (by norm_num) hw)
  rw [show toUint32 (0:Int) = 0 from by decide] at h
  rw [Nat.zero_mul, Nat.zero_add, Nat.sub_zero, Nat.mod_eq_of_lt hlt] at h
  exact h

/-- C1: for every width `w ∈ [1,32]`, every value representable in `w`
bits (signed or unsigned), every offset with `offset + w` inside the
view's bit length, and both endiannesses, `setBits(offset, v, w)` followed
by `getBits(offset, w, signed)` returns `v`. -/
theorem setBits_getBits_roundtrip (view : List Nat) (bigEndian : Bool) (offset w : Nat)
    (v : Int) (signed : Bool) (hB : Bytes view) (hw1 : 1 ≤ w) (hw : w ≤ 32)
    (hbound : offset + w ≤ 8 * view.length) (hv : Representable signed w v) :
    ∃ view', setBits view bigEndian offset v w = .ok view' ∧
      getBits view' bigEndian offset w signed = .ok v := by
  cases bigEndian
  · obtain ⟨hok, hlen, hB', hlow, hmid, hhigh⟩ := setBits_le_spec view hB offset v w hw hbound
    refine ⟨_, hok, ?_⟩
    have hbound' : offset + w ≤ 8 * (setBitsLoop false w w view offset 0 v).length := by
      rw [hlen]
      exact hbound
    cases signed
    · rw [Representable] at hv
      rw [if_neg (by simp)] at hv
      obtain ⟨hv0, hv2⟩ := hv
      rw [getBits_le_unsigned _ hB' offset w hw hbound', hmid,
        toUint32_mod_of_representable_unsigned hw hv0 hv2]
      exact congrArg Except.ok (Int.toNat_of_nonneg hv0)
    · apply getBits_signed_result _ false offset w hw1 hw hbound' v hv
      rw [getBitsLoop_le_top _ hB' w offset hw, hmid]
  · obtain ⟨hok, hlen, hB', hlow, hmid, hhigh⟩ := setBits_be_spec view hB offset v w hw hbound
    refine ⟨_, hok, ?_⟩
    have hbound' : offset + w ≤ 8 * (setBitsLoop true w w view offset 0 v).length := by
      rw [hlen]
      exact hbound
    cases signed
    · rw [Representable] at hv
      rw [if_neg (by simp)] at hv
      obtain ⟨hv0, hv2⟩ := hv
      rw [getBits_be_unsigned _ hB' offset w hw hbound', hlen, hmid,
        toUint32_mod_of_representable_unsigned hw hv0 hv2]
      exact congrArg Except.ok (Int.toNat_of_nonneg hv0)
    · apply getBits_signed_result _ true offset w hw1 hw hbound' v hv
      rw [getBitsLoop_be_top _ hB' w offset hw hbound', hlen, hmid]

/-- Concrete instance of the C1 round-trip: writing -137 in 9 bits at
offset 3 of a 3-byte buffer and reading it back, big-endian signed. -/
theorem setBits_getBits_roundtrip_witness :
    Bytes [0, 0, 0] ∧ Representable true 9 (-137) ∧
    (∃ view', setBits [0, 0, 0] true 3 (-137) 9 = .ok view' ∧
      getBits view' true 3 9 true = .ok (-137)) :=
  ⟨by decide, by unfold Representable; norm_num,
    setBits_getBits_roundtrip [0, 0, 0] true 3 9 (-137) true
      (by decide) (by decide) (by decide) (by decide) (by unfold Representable; norm_num)⟩

/-- C2: `getBits` and `setBits` fail — with `outOfRange` specifically —
exactly when `offset + bits` exceeds the view's total bit length
`8 * view.length`, and since that guard fires before the write loop, a
failing `setBits` leaves the buffer unchanged. -/
theorem bounds_guard (view : List Nat) (bigEndian : Bool) (offset bits : Nat)
    (signed : Bool) (value : Int) :
    (8 * view.length < offset + bits →
      getBits view bigEndian offset bits signed = .error .outOfRange ∧
      setBits view bigEndian offset value bits = .error .outOfRange ∧
      setBitsState view bigEndian offset value bits = view) ∧
    (offset + bits ≤ 8 * view.length →
      (∃ r, getBits view bigEndian offset bits signed = .ok r) ∧
      (∃ view', setBits view bigEndian offset value bits = .ok view')) := by
  constructor
  · intro h
    have hset : setBits view bigEndian offset value bits = .error .outOfRange :=
      (setBits_error_iff view bigEndian offset value bits).mpr h
    refine ⟨?_, hset, ?_⟩
    · unfold getBits
      rw [if_pos (by push_cast; omega)]
    · unfold setBitsState
      rw [hset]
  · intro h
    constructor
    · rcases hg : getBits view bigEndian offset bits signed with e | r
      · exact absurd ((getBits_error_iff view bigEndian offset bits signed).mp ⟨e, hg⟩)
          (by omega)
      · exact ⟨r, rfl⟩
    · rcases hs : setBits view bigEndian offset value bits with e | v2
      · exfalso
        unfold setBits at hs
        rw [if_neg (by push_cast; omega)] at hs
        exact Except.noConfusion hs
      · exact ⟨v2, rfl⟩

/-- The generic `reader` closure satisfies the cursor-advance contract for
any view getter, at any size. -/
theorem reader_contract {α : Type} (g : List Nat → Bool → Nat → Except StreamError α)
    (size : Nat) : ReaderOk (reader g size) size := by
  intro view bigEndian c
  by_cases h : c.index + size > c.length
  · refine ⟨fun _ => ?_, ?_, ?_⟩
    · unfold reader
      rw [if_pos h]
    · intro x hx
      unfold reader at hx
      rw [if_pos h] at hx
      exact Except.noConfusion hx
    · intro e he
      unfold reader
      rw [if_pos h]
  · refine ⟨fun hh => absurd hh h, ?_, ?_⟩
    · intro x hx
      unfold reader at hx ⊢
      rw [if_neg h] at hx ⊢
      rcases hg : g view bigEndian c.index with e | v
      · rw [hg] at hx
        exact Except.noConfusion hx
      · rfl
    · intro e he
      unfold reader at he ⊢
      rw [if_neg h] at he ⊢
      rcases hg : g view bigEndian c.index with e2 | v
      · rfl
      · rw [hg] at he
        exact Except.noConfusion he

/-- The generic `writer` closure satisfies the cursor-advance contract for
any view setter, at any size. -/
theorem writer_contract {β : Type}
    (s : List Nat → Bool → Nat → β → Except StreamError (List Nat)) (size : Nat) :
    WriterOk (writer s size) size := by
  intro view bigEndian c value
  constructor
  · intro hok
    unfold writer at hok ⊢
    rcases hs : s view bigEndian c.index value with e | view2
    · rw [hs] at hok
      exact Except.noConfusion hok
    · rfl
  · intro e he
    unfold writer at he ⊢
    rcases hs : s view bigEndian c.index value with e2 | view2
    · exact ⟨rfl, rfl⟩
    · rw [hs] at he
      exact Except.noConfusion he

/-- C3: each typed cursor read (`readBoolean`, `readInt8/16/32`,
`readUint8/16/32`, `readFloat32/64`) satisfies the reader contract at its
bit width — a boundary-crossing read fails with `endOfStream`, a success
advances `index` by exactly the width, a failure leaves the cursor
unchanged — and each typed writer the corresponding writer contract. -/
theorem typed_ops_cursor_contract :
    ReaderOk readBoolean 1 ∧ ReaderOk readInt8 8 ∧ ReaderOk readInt16 16 ∧
    ReaderOk readInt32 32 ∧ ReaderOk readUint8 8 ∧ ReaderOk readUint16 16 ∧
    ReaderOk readUint32 32 ∧ ReaderOk readFloat32 32 ∧ ReaderOk readFloat64 64 ∧
    WriterOk writeBoolean 1 ∧ WriterOk writeInt8 8 ∧ WriterOk writeInt16 16 ∧
    WriterOk writeInt32 32 ∧ WriterOk writeUint8 8 ∧ WriterOk writeUint16 16 ∧
    WriterOk writeUint32 32 ∧ WriterOk writeFloat32 32 ∧ WriterOk writeFloat64 64 :=
  ⟨reader_contract getBoolean 1, reader_contract getInt8 8, reader_contract getInt16 16,
   reader_contract getInt32 32, reader_contract getUint8 8, reader_contract getUint16 16,
   reader_contract getUint32 32, reader_contract getFloat32 32, reader_contract getFloat64 64,
   writer_contract setBoolean 1, writer_contract setInt8 8, writer_contract setInt16 16,
   writer_contract setInt32 32, writer_contract setInt8 8, writer_contract setInt16 16,
   writer_contract setInt32 32, writer_contract setFloat32 32, writer_contract setFloat64 64⟩

/-- C4 counterexample: `readBitStream` for 16 bits on a fresh 1-byte
stream leaves the parent cursor with `index = 16` beyond `length = 8`,
refuting the claim that no operation leaves the index past the length. -/
theorem cursor_invariant_counterexample :
    (readBitStream [0] (Cursor.fresh [0]) 16).2.length
      < (readBitStream [0] (Cursor.fresh [0]) 16).2.index := by decide

/-- C4 (corrected): the invariant `startIndex ≤ index ≤ length` is
maintained by the length-checked `reader` closures (all typed reads): on
success the index grows by `size` but stays within the window, on failure
the cursor is unchanged, and `startIndex`/`length` never move.  The
original claim fails for `writeBits`, `readBits`, the `writer` closures
and `readBitStream`, which perform no window check (see the
counterexample). -/
theorem reader_preserves_invariant {α : Type}
    (g : List Nat → Bool → Nat → Except StreamError α) (size : Nat)
    (view : List Nat) (bigEndian : Bool) (c : Cursor)
    (h1 : c.startIndex ≤ c.index) (h2 : c.index ≤ c.length) :
    c.startIndex ≤ (reader g size view bigEndian c).2.index ∧
    (reader g size view bigEndian c).2.index ≤ (reader g size view bigEndian c).2.length ∧
    (reader g size view bigEndian c).2.startIndex = c.startIndex ∧
    (reader g size view bigEndian c).2.length = c.length := by
  unfold reader
  by_cases h : c.index + size > c.length
  · rw [if_pos h]
    exact ⟨h1, h2, rfl, rfl⟩
  · rw [if_neg h]
    rcases hg : g view bigEndian c.index with e | v
    · exact ⟨h1, h2, rfl, rfl⟩
    · refine ⟨?_, ?_, rfl, rfl⟩
      · show c.startIndex ≤ c.index + size
        omega
      · show c.index + size ≤ c.length
        omega

/-- Concrete instance of the corrected C4 invariant: a `getUint8` read on
a fresh 1-byte stream. -/
theorem reader_preserves_invariant_witness :
    (Cursor.fresh [5]).startIndex ≤ (Cursor.fresh [5]).index ∧
    ((Cursor.fresh [5]).startIndex
        ≤ (reader getUint8 8 [5] false (Cursor.fresh [5])).2.index ∧
      (reader getUint8 8 [5] false (Cursor.fresh [5])).2.index
        ≤ (reader getUint8 8 [5] false (Cursor.fresh [5])).2.length ∧
      (reader getUint8 8 [5] false (Cursor.fresh [5])).2.startIndex
        = (Cursor.fresh [5]).startIndex ∧
      (reader getUint8 8 [5] false (Cursor.fresh [5])).2.length
        = (Cursor.fresh [5]).length) :=
  ⟨by decide, reader_preserves_invariant getUint8 8 [5] false (Cursor.fresh [5])
    (by decide) (by decide)⟩

/-- C5: `readBitStream view c n` returns a sub-cursor over the same
engine state (the shared view accompanies every cursor in this
embedding) whose window starts at the parent's current absolute index,
with window-local index 0 and window-local length exactly `n` (the
getters subtract `startIndex`), and advances the parent's index by
exactly `n` bits, leaving the parent's window untouched. -/
theorem readBitStream_spec (view : List Nat) (c : Cursor) (n : Nat) :
    (readBitStream view c n).1.startIndex = c.index ∧
    (readBitStream view c n).1.index - (readBitStream view c n).1.startIndex = 0 ∧
    (readBitStream view c n).1.length - (readBitStream view c n).1.startIndex = n ∧
    (readBitStream view c n).2.index = c.index + n ∧
    (readBitStream view c n).2.startIndex = c.startIndex ∧
    (readBitStream view c n).2.length = c.length := by
  refine ⟨rfl, ?_, ?_, rfl, rfl, rfl⟩
  · show c.index - c.index = 0
    omega
  · show n + c.index - c.index = n
    omega

/-- The little-endian stream bit at `p` is bit `p` of the buffer's
little-endian value. -/
theorem streamBit_le_eq (view : List Nat) (hB : Bytes view) (p : Nat) :
    streamBit view false p = bufValLE view / 2 ^ p % 2 := by
  show view.getD (p / 8) 0 / 2 ^ (p % 8) % 2 = _
  rw [getD_eq_bufValLE view hB (p / 8)]
  rw [show (256 : Nat) = 2 ^ 8 from by norm_num]
  have h := mod_div_mod (bufValLE view / 2 ^ (8 * (p / 8))) 8 (p % 8) 1 (by omega)
  rw [pow_one] at h
  rw [h, Nat.div_div_eq_div_mul, ← pow_add]
  rw [show 8 * (p / 8) + p % 8 = p from by omega]

/-- The big-endian stream bit at `p` is bit `8 * L - 1 - p` of the
buffer's big-endian value. -/
theorem streamBit_be_eq (view : List Nat) (hB : Bytes view) (p : Nat)
    (hp : p < 8 * view.length) :
    streamBit view true p = bufValBE view / 2 ^ (8 * view.length - 1 - p) % 2 := by
  show view.getD (p / 8) 0 / 2 ^ (7 - p % 8) % 2 = _
  rw [getD_eq_bufValBE view hB (p / 8) (by omega)]
  rw [show (256 : Nat) = 2 ^ 8 from by norm_num]
  have h := mod_div_mod (bufValBE view / 2 ^ (8 * (view.length - 1 - p / 8))) 8 (7 - p % 8) 1
    (by omega)
  rw [pow_one] at h
  rw [h, Nat.div_div_eq_div_mul, ← pow_add]
  rw [show 8 * (view.length - 1 - p / 8) + (7 - p % 8) = 8 * view.length - 1 - p from by omega]

/-- Frame transfer, little-endian: preserved low and high parts preserve
every stream bit outside `[offset, offset + bits)`. -/
theorem bufValLE_frame (V V2 : List Nat) (hBV : Bytes V) (hBV2 : Bytes V2)
    (offset bits p : Nat)
    (hlow : bufValLE V2 % 2 ^ offset = bufValLE V % 2 ^ offset)
    (hhigh : bufValLE V2 / 2 ^ (offset + bits) = bufValLE V / 2 ^ (offset + bits))
    (hout : p < offset ∨ offset + bits ≤ p) :
    streamBit V2 false p = streamBit V false p := by
  rw [streamBit_le_eq V2 hBV2 p, streamBit_le_eq V hBV p]
  rcases hout with hlt | hge
  · have e1 := mod_div_mod (bufValLE V2) offset p 1 (by omega)
    have e2 := mod_div_mod (bufValLE V) offset p 1 (by omega)
    rw [pow_one] at e1 e2
    rw [← e1, ← e2, hlow]
  · have key : ∀ x : Nat,
        x / 2 ^ p = x / 2 ^ (offset + bits) / 2 ^ (p - (offset + bits)) := by
      intro x
      rw [Nat.div_div_eq_div_mul, ← pow_add,
        show offset + bits + (p - (offset + bits)) = p from by omega]
    rw [key (bufValLE V2), key (bufValLE V), hhigh]

/-- Frame transfer, big-endian: preserved low and high parts of the
mirrored span preserve every stream bit outside `[offset, offset + bits)`. -/
theorem bufValBE_frame (V V2 : List Nat) (hBV : Bytes V) (hBV2 : Bytes V2)
    (hlen : V2.length = V.length) (offset bits p : Nat)
    (hob : offset + bits ≤ 8 * V.length)
    (hlow : bufValBE V2 % 2 ^ (8 * V.length - offset - bits)
      = bufValBE V % 2 ^ (8 * V.length - offset - bits))
    (hhigh : bufValBE V2 / 2 ^ (8 * V.length - offset)
      = bufValBE V / 2 ^ (8 * V.length - offset))
    (hp : p < 8 * V.length) (hout : p < offset ∨ offset + bits ≤ p) :
    streamBit V2 true p = streamBit V true p := by
  rw [streamBit_be_eq V2 hBV2 p (by rw [hlen]; exact hp), streamBit_be_eq V hBV p hp, hlen]
  rcases hout with hlt | hge
  · have key : ∀ x : Nat, x / 2 ^ (8 * V.length - 1 - p)
        = x / 2 ^ (8 * V.length - offset)
          / 2 ^ (8 * V.length - 1 - p - (8 * V.length - offset)) := by
      intro x
      rw [Nat.div_div_eq_div_mul, ← pow_add,
        show 8 * V.length - offset + (8 * V.length - 1 - p - (8 * V.length - offset))
          = 8 * V.length - 1 - p from by omega]
    rw [key (bufValBE V2), key (bufValBE V), hhigh]
  · have e1 := mod_div_mod (bufValBE V2) (8 * V.length - offset - bits)
      (8 * V.length - 1 - p) 1 (by omega)
    have e2 := mod_div_mod (bufValBE V) (8 * V.length - offset - bits)
      (8 * V.length - 1 - p) 1 (by omega)
    rw [pow_one] at e1 e2
    rw [← e1, ← e2, hlow]

/-- C6 counterexample: a sub-stream whose declared window is the first 8
bits of a 2-byte buffer performs a 16-bit `writeBits` that succeeds and
sets byte 1 — outside the window `[0, 8)` — to 255, refuting the claim
that sub-stream writes never modify bits outside the window. -/
theorem substream_write_frame_counterexample :
    (readBitStream [0, 0] (Cursor.fresh [0, 0]) 8).1.startIndex = 0 ∧
    (readBitStream [0, 0] (Cursor.fresh [0, 0]) 8).1.length = 8 ∧
    (writeBits [0, 0] false (readBitStream [0, 0] (Cursor.fresh [0, 0]) 8).1 65535 16).2.2
      = [255, 255] := by decide

/-- C6 (corrected): a `writeBits` through a sub-stream cursor whose span
stays inside the declared window `[startIndex, length)` modifies no
stream bit outside that window, in either endianness.  The original claim
fails for writes that overrun the window, which the writer layer does not
check (see the counterexample). -/
theorem substream_write_frame (view : List Nat) (bigEndian : Bool) (c : Cursor)
    (value : Int) (bits : Nat) (hB : Bytes view) (hbits : bits ≤ 32)
    (hstart : c.startIndex ≤ c.index) (hwin : c.index + bits ≤ c.length)
    (hlen : c.length ≤ 8 * view.length) (p : Nat) (hp : p < 8 * view.length)
    (hout : p < c.startIndex ∨ c.length ≤ p) :
    streamBit (writeBits view bigEndian c value bits).2.2 bigEndian p
      = streamBit view bigEndian p := by
  cases bigEndian
  · obtain ⟨hok, hlen2, hB2, hlow, hmid, hhigh⟩ :=
      setBits_le_spec view hB c.index value bits hbits (by omega)
    unfold writeBits
    rw [hok]
    exact bufValLE_frame view _ hB hB2 c.index bits p hlow hhigh (by omega)
  · obtain ⟨hok, hlen2, hB2, hlow, hmid, hhigh⟩ :=
      setBits_be_spec view hB c.index value bits hbits (by omega)
    unfold writeBits
    rw [hok]
    exact bufValBE_frame view _ hB hB2 hlen2 c.index bits p (by omega) hlow hhigh hp (by omega)

/-- Concrete instance of the corrected C6 frame property: an in-window
8-bit write through the sub-cursor `⟨8, 16, 8⟩` of a 2-byte buffer leaves
stream bit 0 (outside the window) unchanged. -/
theorem substream_write_frame_witness :
    Bytes [1, 2] ∧
    streamBit (writeBits [1, 2] false ⟨8, 16, 8⟩ 255 8).2.2 false 0
      = streamBit [1, 2] false 0 :=
  ⟨by decide, substream_write_frame [1, 2] false ⟨8, 16, 8⟩ 255 8 (by decide) (by decide)
    (by decide) (by decide) (by decide) 0 (by decide) (by decide)⟩

/-- C7: the code diverges from this claim.  `BitStream.readASCIIString`
forwards only `(this, bytes)` to utils' four-parameter `readASCIIString`,
so the requested count is bound to the `length` parameter, `index` stays
`undefined`, the loop bound `Math.floor(length - index)` is NaN, and every
`i < NaN` test is false: for every view, endianness, cursor and requested
byte count the call returns the empty character list and consumes zero
bytes, instead of advancing the cursor by `8 * bytes` bits. -/
theorem readASCIIString_consumes_nothing (view : List Nat) (bigEndian : Bool)
    (c : Cursor) (bytes : Nat) :
    BitStream.readASCIIString view bigEndian c bytes = .ok ([], c) := rfl

/-- C8: the code diverges from this claim.  `setFloat64` issues its second
32-bit write at `offset` instead of `offset + 32`, so the low word
overwrites the high word: writing the pattern of 1.0
(`0x3FF0000000000000 = 4607182418800017408`) into an 8-byte zero buffer at
offset 0 (little-endian) leaves the buffer all zero, and `getFloat64`
reads back pattern 0, not the pattern written. -/
theorem setFloat64_getFloat64_mismatch :
    setFloat64 [0, 0, 0, 0, 0, 0, 0, 0] false 0 4607182418800017408
        = .ok [0, 0, 0, 0, 0, 0, 0, 0] ∧
    getFloat64 [0, 0, 0, 0, 0, 0, 0, 0] false 0 = .ok 0 ∧
    (0 : Nat) ≠ 4607182418800017408 :=
  ⟨rfl, rfl, by decide⟩

/-- C9: on the buffer `[0b10110010, 0, 0]` a 4-bit unsigned `getBits` at
offset 0 returns `0b1011 = 11` in big-endian mode and `0b0010 = 2` in
little-endian mode. -/
theorem getBits_example_endianness :
    getBits [178, 0, 0] true 0 4 false = .ok 11 ∧
    getBits [178, 0, 0] false 0 4 false = .ok 2 :=
  ⟨rfl, rfl⟩

/-- The write loop run with `length = arr.length + 1` and enough fuel
writes every element of `arr` and then one `0x00` terminator: it agrees
with `writeBytesSpec` on `arr ++ [0]`. -/
theorem writeStringLoop_eq_writeBytesSpec (bigEndian : Bool) (arr : List Int) :
    ∀ (fuel i : Nat) (view : List Nat) (c : Cursor), i ≤ arr.length →
      arr.length + 1 ≤ fuel + i →
      writeStringLoop bigEndian arr ((arr.length : Int) + 1) fuel view c i
        = writeBytesSpec bigEndian (arr.drop i ++ [0]) view c := by
  intro fuel
  induction fuel with
  | zero =>
    intro i view c hi hfuel
    omega
  | succ fuel ih =>
    intro i view c hi hfuel
    rcases Nat.lt_or_ge i arr.length with hcase | hcase
    · rw [writeStringLoop]
      rw [if_pos (show (i : Int) < (arr.length : Int) + 1 from by omega)]
      rw [if_pos hcase]
      have hdrop : arr.drop i = arr.getD i 0 :: arr.drop (i + 1) := by
        rw [List.getD_eq_getElem arr 0 hcase]
        exact List.drop_eq_getElem_cons hcase
      rw [hdrop, List.cons_append, writeBytesSpec]
      rcases hw : writeUint8 view bigEndian c (arr.getD i 0) with ⟨r, c2, view2⟩
      cases r with
      | error e => rfl
      | ok u => exact ih (i + 1) view2 c2 (by omega) (by omega)
    · rw [writeStringLoop]
      rw [if_pos (show (i : Int) < (arr.length : Int) + 1 from by omega)]
      rw [if_neg (show ¬ i < arr.length from by omega)]
      rw [List.drop_eq_nil_of_le (by omega), List.nil_append, writeBytesSpec]
      rcases hw : writeUint8 view bigEndian c 0 with ⟨r, c2, view2⟩
      cases r with
      | error e => rfl
      | ok u =>
        show writeStringLoop bigEndian arr ((arr.length : Int) + 1) fuel view2 c2 (i + 1)
          = writeBytesSpec bigEndian [] view2 c2
        cases fuel with
        | zero => rfl
        | succ fuel2 =>
          rw [writeStringLoop]
          rw [if_neg (show ¬ ((i + 1 : Nat) : Int) < (arr.length : Int) + 1 from by omega)]
          rfl

/-- C10: a fixed byte count of 0 is treated as absent (`(bytes ?? 0) ||`
is falsy at 0): with `bytes = some 0` both string writers behave exactly
like the call with no byte count, which writes the encoded string
followed by one `0x00` terminator through the cursor's `writeUint8` —
`s.length + 1` bytes in the ASCII case, `byteArray.length + 1` in the
UTF-8 case. -/
theorem writeString_zero_bytes (view : List Nat) (bigEndian : Bool) (c : Cursor)
    (s : List Nat) :
    writeASCIIString view bigEndian c s (some 0) = writeASCIIString view bigEndian c s none ∧
    writeUTF8String view bigEndian c s (some 0) = writeUTF8String view bigEndian c s none ∧
    writeASCIIString view bigEndian c s none
      = writeBytesSpec bigEndian (s.map (fun u : Nat => (u : Int)) ++ [0]) view c ∧
    writeUTF8String view bigEndian c s none
      = writeBytesSpec bigEndian
          ((stringToByteArray s).map (fun u : Nat => (u : Int)) ++ [0]) view c := by
  refine ⟨rfl, rfl, ?_, ?_⟩
  · have hlen : (s.map (fun u : Nat => (u : Int))).length = s.length :=
      List.length_map s (fun u : Nat => (u : Int))
    have h := writeStringLoop_eq_writeBytesSpec bigEndian (s.map (fun u : Nat => (u : Int)))
      ((((s.map (fun u : Nat => (u : Int))).length : Int) + 1).toNat + 1) 0 view c
      (by omega) (by omega)
    rw [List.drop_zero] at h
    rw [hlen] at h
    exact h
  · have hlen : ((stringToByteArray s).map (fun u : Nat => (u : Int))).length
        = (stringToByteArray s).length :=
      List.length_map (stringToByteArray s) (fun u : Nat => (u : Int))
    have h := writeStringLoop_eq_writeBytesSpec bigEndian
      ((stringToByteArray s).map (fun u : Nat => (u : Int)))
      (((((stringToByteArray s).map (fun u : Nat => (u : Int))).length : Int) + 1).toNat + 1)
      0 view c (by omega) (by omega)
    rw [List.drop_zero] at h
    rw [hlen] at h
    exact h

end BitBuffer

